import Mathlib

/-!
Shallow embedding of `src/json_parser.py` (a from-scratch JSON lexer and
recursive-descent parser) and proofs about it.

Modelling conventions:
* Python strings are modelled as `List Char` for input text; decoded string
  values are lists of Unicode code points (`List Nat`), since `\uXXXX` escapes
  can produce lone surrogates, which Lean's `Char` cannot hold.
* Machine-level Python failures that escape the lexer/parser (uncaught
  `TypeError` from `str + None`, or from `None in 'eE'`; uncaught `ValueError`
  from `int(...)`/`chr(...)` outside a `try`) are modelled as dedicated
  `Failure` constructors distinct from the located `SyntaxError`s the code
  raises deliberately.
* `str.isdigit`/`str.isalpha` are modelled on the ASCII range (`Char.isDigit`,
  `Char.isAlpha`); every input considered in the claims is ASCII.
* The parser's `while True` loops and mutual recursion are embedded with a
  fuel parameter; fuel exhaustion (`Failure.fuelOut`) corresponds to states
  unreachable from `parse_json` (token lists not ending in EOF).
-/

namespace JsonSpec

/-- Whitespace characters skipped by the lexer main loop (`char in ' \t\n\r'`). -/
def isWS (c : Char) : Bool := c = ' ' || c = '\t' || c = '\n' || c = '\r'

/-- A source position: (line, column), both 1-based as in `JSONLexer`. -/
abbrev Pos := Nat × Nat

/-- `JSONLexer.advance` position update: consuming a newline moves to the next
line at column 1; any other character moves one column right. -/
def advPos (p : Pos) (c : Char) : Pos :=
  if c = '\n' then (p.1 + 1, 1) else (p.1, p.2 + 1)

/-- Position after consuming a run of characters, one `advance` at a time. -/
def advPosList (p : Pos) (cs : List Char) : Pos := cs.foldl advPos p

/-- How a run of the pipeline can fail.  `lexErr`/`parseErr` are the
`SyntaxError`s raised by `JSONLexer.error`/`JSONParser.error`, carrying a
message and the 1-based (line, column) current at raise time.  The remaining
constructors model uncaught Python exceptions: `typeErr` for `TypeError`
(`None` used where a `str` is required), `valueErr` for `ValueError` escaping
`int(hex_digits, 16)`/`chr(...)` in `tokenize_string` (no `try` there),
`indexErr` for `IndexError` (indexing an empty token list), and `fuelOut` for
the fuel bound of the embedding (unreachable from `parse_json`). -/
inductive Failure where
  | lexErr (msg : String) (line col : Nat)
  | parseErr (msg : String) (line col : Nat)
  | typeErr
  | valueErr
  | indexErr
  | fuelOut
deriving DecidableEq, Repr

/-- `TokenType` from the source (the `WHITESPACE` member is never used: no
whitespace token is ever constructed). -/
inductive TokenType where
  | STRING | NUMBER | TRUE | FALSE | NULL
  | LBRACE | RBRACE | LBRACKET | RBRACKET | COLON | COMMA | EOF
deriving DecidableEq, Repr

/-- The `.value` string of each `TokenType` enum member, as used in parser
error messages. -/
def TokenType.str : TokenType → String
  | .STRING => "STRING"
  | .NUMBER => "NUMBER"
  | .TRUE => "TRUE"
  | .FALSE => "FALSE"
  | .NULL => "NULL"
  | .LBRACE => "LBRACE"
  | .RBRACE => "RBRACE"
  | .LBRACKET => "LBRACKET"
  | .RBRACKET => "RBRACKET"
  | .COLON => "COLON"
  | .COMMA => "COMMA"
  | .EOF => "EOF"

/-- A decoded Python string value: a list of Unicode code points (it can
include lone surrogates produced by `\uXXXX`). -/
abbrev Str := List Nat

/-- The dynamically-typed `Token.value` field: `None` for EOF, the decoded
text for strings, `int`/`float` results for numbers, `True`/`False` for
keywords, and the single structural character for punctuation tokens. -/
inductive TokValue where
  | none
  | str (s : Str)
  | int (n : Int)
  | float (lexeme : String)
  | bool (b : Bool)
  | char (c : Char)
deriving DecidableEq, Repr

/-- `Token`: type, value and the 1-based source position of its first
character. -/
structure Token where
  type : TokenType
  value : TokValue
  line : Nat
  column : Nat
deriving DecidableEq, Repr

/-- The parser's output: a Python value tree.  Floats are kept as their source
lexeme (the claims under study never compare distinct float spellings); objects
are insertion-ordered association lists, mirroring a Python `dict`. -/
inductive JValue where
  | null
  | bool (b : Bool)
  | int (n : Int)
  | float (lexeme : String)
  | str (s : Str)
  | arr (elems : List JValue)
  | obj (members : List (Str × JValue))

/-- `Token.value` as the Python object `parse_value` would return for it
(`return token.value`): total because every `TokValue` is some Python value. -/
def TokValue.toJ : TokValue → JValue
  | .none => .null
  | .str s => .str s
  | .int n => .int n
  | .float s => .float s
  | .bool b => .bool b
  | .char c => .str [c.toNat]

/-- `Token.value` viewed as an object key.  `expect(STRING)` guarantees that in
any lexer-produced stream the value is `.str`; other payloads cannot reach the
key position. -/
def TokValue.asKey : TokValue → Str
  | .str s => s
  | .char c => [c.toNat]
  | _ => []

/-- ASCII whitespace stripped by Python `str.strip()` (the characters relevant
to inputs made of source-text characters). -/
def isPyStripWS (c : Char) : Bool :=
  c = ' ' || c = '\t' || c = '\n' || c = '\r' || c = '\x0b' || c = '\x0c'

/-- Value of one hexadecimal digit, if any (via the code point: 48–57 are
`0`–`9`, 97–102 are `a`–`f`, 65–70 are `A`–`F`). -/
def hexVal (c : Char) : Option Nat :=
  let n := c.toNat
  if 48 ≤ n && n ≤ 57 then some (n - 48)
  else if 97 ≤ n && n ≤ 102 then some (n - 87)
  else if 65 ≤ n && n ≤ 70 then some (n - 55)
  else none

/-- Hex digits possibly separated by single underscores, continuing a number
whose leading digit was already read (Python `int(s, 16)` digit grammar). -/
def hexGo : List Char → Nat → Option Nat
  | [], acc => some acc
  | '_' :: c :: rest, acc =>
    match hexVal c with
    | some v => hexGo rest (acc * 16 + v)
    | none => none
  | ['_'], _ => none
  | c :: rest, acc =>
    match hexVal c with
    | some v => hexGo rest (acc * 16 + v)
    | none => none

/-- A nonempty underscore-separated hex digit string: `D ('_'? D)*`. -/
def hexBody : List Char → Option Nat
  | [] => none
  | c :: rest =>
    match hexVal c with
    | some v => hexGo rest v
    | none => none

/-- Models the Python builtin `int(s, 16)` on ASCII inputs: surrounding
whitespace is stripped, an optional single sign and an optional `0x`/`0X`
prefix are accepted, then underscore-separated hex digits. -/
def pyIntHex (s : String) : Option Int :=
  let cs := ((s.toList.dropWhile isPyStripWS).reverse.dropWhile isPyStripWS).reverse
  let signed : Int × List Char :=
    match cs with
    | '+' :: t => (1, t)
    | '-' :: t => (-1, t)
    | _ => (1, cs)
  let body : Option Nat :=
    match signed.2 with
    | '0' :: x :: t =>
      if x = 'x' || x = 'X' then
        match t with
        | '_' :: t2 => hexBody t2
        | _ => hexBody t
      else hexBody signed.2
    | _ => hexBody signed.2
  body.map (fun n => signed.1 * n)

/-- Models the Python builtin `chr`: valid for code points `0 ≤ n < 0x110000`,
`ValueError` (here `none`) otherwise. -/
def pyChr (n : Int) : Option Nat :=
  if 0 ≤ n ∧ n < 1114112 then some n.toNat else none

/-- Models the Python builtin `int(s)` (base 10) on the lexemes the number
scanner can produce (optional sign then digits; no whitespace or underscores
can occur in such lexemes). -/
def pyIntDec (s : String) : Option Int :=
  let signed : Int × List Char :=
    match s.toList with
    | '+' :: t => (1, t)
    | '-' :: t => (-1, t)
    | _ => (1, s.toList)
  if signed.2 ≠ [] ∧ signed.2.all Char.isDigit then
    some (signed.1 * (signed.2.foldl (fun acc c => acc * 10 + (c.toNat - '0'.toNat)) 0 : Nat))
  else none

/-- Maximal run of characters satisfying `p`, and the remainder (the shape of
the lexer's `while self.peek() and self.peek().isdigit()` / `.isalpha()`
loops). -/
def spanP (p : Char → Bool) : List Char → List Char × List Char
  | [] => ([], [])
  | c :: cs =>
    if p c then
      let (run, rest) := spanP p cs
      (c :: run, rest)
    else ([], c :: cs)

/-- Whether the Python builtin `float(s)` succeeds on a lexeme the number
scanner can produce (sign, digits, dot, `e`/`E`, exponent sign): it needs at
least one mantissa digit and, if an exponent letter is present, at least one
exponent digit and nothing after them. -/
def pyFloatOk (s : String) : Bool :=
  let cs :=
    match s.toList with
    | '+' :: t => t
    | '-' :: t => t
    | l => l
  let m := spanP Char.isDigit cs
  let afterMantissa : Option (List Char) :=
    match m.2 with
    | '.' :: r2 =>
      let f := spanP Char.isDigit r2
      if m.1 = [] ∧ f.1 = [] then none else some f.2
    | _ => if m.1 = [] then none else some m.2
  match afterMantissa with
  | none => false
  | some r =>
    match r with
    | [] => true
    | e :: t =>
      if e = 'e' || e = 'E' then
        let t2 :=
          match t with
          | '+' :: u => u
          | '-' :: u => u
          | _ => t
        let d := spanP Char.isDigit t2
        decide (d.1 ≠ [] ∧ d.2 = [])
      else false

namespace JSONLexer

/-- The eight single-character escapes of `tokenize_string` and their decoded
code points, in the source's elif order (`\" \\ \/ \b \f \n \r \t`). -/
def simpleEsc (e : Char) : Option Nat :=
  if e = '"' then some 34
  else if e = '\\' then some 92
  else if e = '/' then some 47
  else if e = 'b' then some 8
  else if e = 'f' then some 12
  else if e = 'n' then some 10
  else if e = 'r' then some 13
  else if e = 't' then some 9
  else none

/-- Body of `tokenize_string` after the opening quote: decode characters until
an unescaped closing quote, returning the decoded code points, the remaining
input and the position after the closing quote.  Mirrors the source loop:
a closing quote stops; a backslash reads the escape character (`None` at end
of input gives the "Invalid escape sequence" error), decodes the eight simple
escapes via `simpleEsc`, hands `\u` exactly four raw characters for
`int(_, 16)` and `chr` (whose `ValueError`s escape uncaught, and with fewer
than four characters remaining the `hex_digits += None` concatenation raises
`TypeError`); any other character is copied verbatim.  The `\u` rows are
dispatched before the generic escape row, which is sound because `u` is not
one of the eight simple escapes. -/
def strBody : List Char → Pos → Except Failure (Str × List Char × Pos)
  | [], pos => .error (.lexErr "Unterminated string" pos.1 pos.2)
  | '"' :: cs, pos => .ok ([], cs, advPos pos '"')
  | '\\' :: [], pos =>
    .error (.lexErr "Invalid escape sequence: \\None" (advPos pos '\\').1 (advPos pos '\\').2)
  | '\\' :: 'u' :: a :: b :: c2 :: d :: cs3, pos =>
    (pyIntHex (String.mk [a, b, c2, d])).elim (.error .valueErr) (fun n =>
      (pyChr n).elim (.error .valueErr) (fun code =>
        (strBody cs3
            (advPos (advPos (advPos (advPos (advPos (advPos pos '\\') 'u') a) b) c2) d)).map
          (fun r => (code :: r.1, r.2))))
  | '\\' :: 'u' :: _, _ => .error .typeErr
  | '\\' :: e :: cs2, pos =>
    (simpleEsc e).elim
      (.error (.lexErr ("Invalid escape sequence: \\".push e)
        (advPos (advPos pos '\\') e).1 (advPos (advPos pos '\\') e).2))
      (fun code =>
        (strBody cs2 (advPos (advPos pos '\\') e)).map (fun r => (code :: r.1, r.2)))
  | c :: cs, pos => (strBody cs (advPos pos c)).map (fun r => (c.toNat :: r.1, r.2))

/-- `tokenize_string`: `c` is the opening quote at position `pos`; the token
records the opening quote's position. -/
def tokenize_string (c : Char) (cs : List Char) (pos : Pos) :
    Except Failure (Token × List Char × Pos) :=
  (strBody cs (advPos pos c)).map
    (fun r => (⟨.STRING, .str r.1, pos.1, pos.2⟩, r.2.1, r.2.2))

/-- Optional leading minus of `tokenize_number`. -/
def numMinus : List Char → List Char × List Char
  | '-' :: t => (['-'], t)
  | cs => ([], cs)

/-- Integer part: a single `0`, or else a maximal digit run. -/
def numInt : List Char → List Char × List Char
  | '0' :: t => (['0'], t)
  | cs => spanP Char.isDigit cs

/-- Optional fractional part: `.` followed by a maximal digit run. -/
def numFrac : List Char → List Char × List Char
  | '.' :: t =>
    let d := spanP Char.isDigit t
    ('.' :: d.1, d.2)
  | cs => ([], cs)

/-- Exponent stage.  The source evaluates `self.peek() in 'eE'`
unconditionally, so a number ending exactly at end of input raises an uncaught
`TypeError` (`None` is not a `str`); likewise for `self.peek() in '+-'` right
after the exponent letter. -/
def numExp : List Char → Except Failure (List Char × List Char)
  | [] => .error .typeErr
  | [c] => if c = 'e' || c = 'E' then .error .typeErr else .ok ([], [c])
  | c :: c2 :: t2 =>
    if c = 'e' || c = 'E' then
      let signed : List Char × List Char :=
        if c2 = '+' || c2 = '-' then ([c2], t2) else ([], c2 :: t2)
      let d := spanP Char.isDigit signed.2
      .ok (c :: (signed.1 ++ d.1), d.2)
    else .ok ([], c :: c2 :: t2)

/-- Conversion step of `tokenize_number`: `float` if the lexeme contains
`.`/`e`/`E`, else `int`; a `ValueError` is caught and re-raised as a located
lexer error at the position after the lexeme. -/
def numFinish (lexeme : List Char) (rest : List Char) (pos : Pos) :
    Except Failure (Token × List Char × Pos) :=
  let pos2 := advPosList pos lexeme
  if lexeme.contains '.' || lexeme.contains 'e' || lexeme.contains 'E' then
    if pyFloatOk (String.mk lexeme) then
      .ok (⟨.NUMBER, .float (String.mk lexeme), pos.1, pos.2⟩, rest, pos2)
    else .error (.lexErr ("Invalid number: " ++ String.mk lexeme) pos2.1 pos2.2)
  else
    match pyIntDec (String.mk lexeme) with
    | some n => .ok (⟨.NUMBER, .int n, pos.1, pos.2⟩, rest, pos2)
    | none => .error (.lexErr ("Invalid number: " ++ String.mk lexeme) pos2.1 pos2.2)

/-- `tokenize_number`: minus, integer part, fraction, exponent, conversion. -/
def tokenize_number (cs : List Char) (pos : Pos) :
    Except Failure (Token × List Char × Pos) :=
  let m := numMinus cs
  let ip := numInt m.2
  let fp := numFrac ip.2
  match numExp fp.2 with
  | .error e => .error e
  | .ok ep => numFinish (m.1 ++ ip.1 ++ fp.1 ++ ep.1) ep.2 pos

/-- `tokenize_keyword`: a maximal alphabetic run matched exactly against
`true`, `false`, `null`. -/
def tokenize_keyword (cs : List Char) (pos : Pos) :
    Except Failure (Token × List Char × Pos) :=
  let r := spanP Char.isAlpha cs
  let pos2 := advPosList pos r.1
  if r.1 = ['t', 'r', 'u', 'e'] then .ok (⟨.TRUE, .bool true, pos.1, pos.2⟩, r.2, pos2)
  else if r.1 = ['f', 'a', 'l', 's', 'e'] then
    .ok (⟨.FALSE, .bool false, pos.1, pos.2⟩, r.2, pos2)
  else if r.1 = ['n', 'u', 'l', 'l'] then .ok (⟨.NULL, .none, pos.1, pos.2⟩, r.2, pos2)
  else .error (.lexErr ("Invalid keyword: " ++ String.mk r.1) pos2.1 pos2.2)

/-- One dispatch step of the `tokenize` loop on current character `c` (not
whitespace, which the loop consumes itself), following the source's `elif`
chain. -/
def scanTok (c : Char) (cs : List Char) (pos : Pos) :
    Except Failure (Token × List Char × Pos) :=
  if c = '{' then .ok (⟨.LBRACE, .char '{', pos.1, pos.2⟩, cs, advPos pos c)
  else if c = '}' then .ok (⟨.RBRACE, .char '}', pos.1, pos.2⟩, cs, advPos pos c)
  else if c = '[' then .ok (⟨.LBRACKET, .char '[', pos.1, pos.2⟩, cs, advPos pos c)
  else if c = ']' then .ok (⟨.RBRACKET, .char ']', pos.1, pos.2⟩, cs, advPos pos c)
  else if c = ':' then .ok (⟨.COLON, .char ':', pos.1, pos.2⟩, cs, advPos pos c)
  else if c = ',' then .ok (⟨.COMMA, .char ',', pos.1, pos.2⟩, cs, advPos pos c)
  else if c = '"' then tokenize_string c cs pos
  else if c = '-' || c.isDigit then tokenize_number (c :: cs) pos
  else if c = 't' || c = 'f' || c = 'n' then tokenize_keyword (c :: cs) pos
  else .error (.lexErr ("Unexpected character: ".push c) pos.1 pos.2)

/-- The `tokenize` loop: skip whitespace, dispatch, append the final EOF
token.  The fuel parameter only bounds loop iterations; `tokenize` supplies
`length + 1`, which always suffices since every iteration consumes at least
one character. -/
def tokLoop : Nat → List Char → Pos → Except Failure (List Token)
  | 0, _, _ => .error .fuelOut
  | _ + 1, [], pos => .ok [⟨.EOF, .none, pos.1, pos.2⟩]
  | fuel + 1, c :: cs, pos =>
    if isWS c then tokLoop fuel cs (advPos pos c)
    else
      match scanTok c cs pos with
      | .error e => .error e
      | .ok r =>
        match tokLoop fuel r.2.1 r.2.2 with
        | .error e => .error e
        | .ok ts => .ok (r.1 :: ts)

/-- `JSONLexer(text).tokenize()` starting at line 1, column 1. -/
def tokenize (s : List Char) : Except Failure (List Token) :=
  tokLoop (s.length + 1) s (1, 1)

end JSONLexer

/-- Python `dict` assignment `obj[key] = value` on an insertion-ordered
association list: an existing key keeps its position and gets the new value;
a fresh key is appended. -/
def dictInsert (d : List (Str × JValue)) (k : Str) (v : JValue) : List (Str × JValue) :=
  match d with
  | [] => [(k, v)]
  | (k0, v0) :: rest => if k0 = k then (k0, v) :: rest else (k0, v0) :: dictInsert rest k v

/-- Lookup in an insertion-ordered association list (Python `d[k]`). -/
def lookupD (d : List (Str × JValue)) (k : Str) : Option JValue :=
  match d with
  | [] => none
  | (k0, v0) :: rest => if k0 = k then some v0 else lookupD rest k

namespace JSONParser

/-- `current_token`: `self.tokens[min(self.pos, len(self.tokens) - 1)]`.
`none` exactly when the token list is empty (Python would raise `IndexError`
indexing `tokens[-1]`). -/
def current_token (ts : List Token) (pos : Nat) : Option Token :=
  ts.get? (min pos (ts.length - 1))

/-- `peek`: `self.tokens[min(self.pos + offset, len(self.tokens) - 1)]`. -/
def peekTok (ts : List Token) (pos : Nat) (offset : Nat) : Option Token :=
  ts.get? (min (pos + offset) (ts.length - 1))

/-- `advance`: move the cursor forward unless already at the final token. -/
def advanceP (ts : List Token) (pos : Nat) : Nat :=
  if pos < ts.length - 1 then pos + 1 else pos

/-- `expect`: fail with a located mismatch error unless the current token has
the given type; on success return it and advance. -/
def expect (ts : List Token) (pos : Nat) (tt : TokenType) :
    Except Failure (Token × Nat) :=
  match current_token ts pos with
  | .none => .error .indexErr
  | .some t =>
    if t.type = tt then .ok (t, advanceP ts pos)
    else .error (.parseErr ("Expected " ++ tt.str ++ ", got " ++ t.type.str) t.line t.column)

mutual

/-- `parse_value`: dispatch on the current token's type. -/
def parse_value : Nat → List Token → Nat → Except Failure (JValue × Nat)
  | 0, _, _ => .error .fuelOut
  | fuel + 1, ts, pos =>
    match current_token ts pos with
    | .none => .error .indexErr
    | .some t =>
      match t.type with
      | .STRING => .ok (t.value.toJ, advanceP ts pos)
      | .NUMBER => .ok (t.value.toJ, advanceP ts pos)
      | .TRUE => .ok (.bool true, advanceP ts pos)
      | .FALSE => .ok (.bool false, advanceP ts pos)
      | .NULL => .ok (.null, advanceP ts pos)
      | .LBRACE => parse_object fuel ts pos
      | .LBRACKET => parse_array fuel ts pos
      | tt => .error (.parseErr ("Unexpected token: " ++ tt.str) t.line t.column)
termination_by structural fuel _ _ => fuel

/-- `parse_object`: `{`, empty-object check, then the member loop. -/
def parse_object : Nat → List Token → Nat → Except Failure (JValue × Nat)
  | 0, _, _ => .error .fuelOut
  | fuel + 1, ts, pos =>
    match expect ts pos .LBRACE with
    | .error e => .error e
    | .ok r1 =>
      match current_token ts r1.2 with
      | .none => .error .indexErr
      | .some t =>
        if t.type = .RBRACE then .ok (.obj [], advanceP ts r1.2)
        else obj_loop fuel ts r1.2 []
termination_by structural fuel _ _ => fuel

/-- The `while True` member loop of `parse_object`, carrying the object built
so far. -/
def obj_loop : Nat → List Token → Nat → List (Str × JValue) →
    Except Failure (JValue × Nat)
  | 0, _, _, _ => .error .fuelOut
  | fuel + 1, ts, pos, acc =>
    match expect ts pos .STRING with
    | .error e => .error e
    | .ok rk =>
      match expect ts rk.2 .COLON with
      | .error e => .error e
      | .ok rc =>
        match parse_value fuel ts rc.2 with
        | .error e => .error e
        | .ok rv =>
          let acc2 := dictInsert acc rk.1.value.asKey rv.1
          match current_token ts rv.2 with
          | .none => .error .indexErr
          | .some t =>
            if t.type = .COMMA then
              let pos4 := advanceP ts rv.2
              match current_token ts pos4 with
              | .none => .error .indexErr
              | .some t2 =>
                if t2.type = .RBRACE then
                  .error (.parseErr "Trailing comma in object" t2.line t2.column)
                else obj_loop fuel ts pos4 acc2
            else
              match expect ts rv.2 .RBRACE with
              | .error e => .error e
              | .ok rb => .ok (.obj acc2, rb.2)
termination_by structural fuel _ _ _ => fuel

/-- `parse_array`: `[`, empty-array check, then the element loop. -/
def parse_array : Nat → List Token → Nat → Except Failure (JValue × Nat)
  | 0, _, _ => .error .fuelOut
  | fuel + 1, ts, pos =>
    match expect ts pos .LBRACKET with
    | .error e => .error e
    | .ok r1 =>
      match current_token ts r1.2 with
      | .none => .error .indexErr
      | .some t =>
        if t.type = .RBRACKET then .ok (.arr [], advanceP ts r1.2)
        else arr_loop fuel ts r1.2 []
termination_by structural fuel _ _ => fuel

/-- The `while True` element loop of `parse_array`, carrying the elements
built so far. -/
def arr_loop : Nat → List Token → Nat → List JValue →
    Except Failure (JValue × Nat)
  | 0, _, _, _ => .error .fuelOut
  | fuel + 1, ts, pos, acc =>
    match parse_value fuel ts pos with
    | .error e => .error e
    | .ok rv =>
      let acc2 := acc ++ [rv.1]
      match current_token ts rv.2 with
      | .none => .error .indexErr
      | .some t =>
        if t.type = .COMMA then
          let pos4 := advanceP ts rv.2
          match current_token ts pos4 with
          | .none => .error .indexErr
          | .some t2 =>
            if t2.type = .RBRACKET then
              .error (.parseErr "Trailing comma in array" t2.line t2.column)
            else arr_loop fuel ts pos4 acc2
        else
          match expect ts rv.2 .RBRACKET with
          | .error e => .error e
          | .ok rb => .ok (.arr acc2, rb.2)
termination_by structural fuel _ _ _ => fuel

end

/-- Fuel supplied to the mutual recursion: generous linear bound, sufficient
for every run on a lexer-produced (EOF-terminated) token stream. -/
def parseFuel (ts : List Token) : Nat := 4 * ts.length + 4

/-- `parse`: one value, then the current token must be EOF. -/
def parse (ts : List Token) : Except Failure JValue :=
  match parse_value (parseFuel ts) ts 0 with
  | .error e => .error e
  | .ok rv =>
    match current_token ts rv.2 with
    | .none => .error .indexErr
    | .some t =>
      if t.type = .EOF then .ok rv.1
      else .error (.parseErr "Expected end of input" t.line t.column)

end JSONParser

/-- `parse_json`: tokenize, then parse. -/
def parse_json (s : String) : Except Failure JValue :=
  match JSONLexer.tokenize s.toList with
  | .error e => .error e
  | .ok ts => JSONParser.parse ts

/-- The position-accuracy test input: `'{'`, newline, two spaces, `"a"`,
colon, space, `'}'` — ten characters. -/
def c6input : List Char := ['{', '\n', ' ', ' ', '"', 'a', '"', ':', ' ', '}']

/-- The (type, value) shape of a token: everything the parser's success
behaviour depends on (positions only reach error payloads). -/
def tokShape (t : Token) : TokenType × TokValue := (t.type, t.value)

/-- Two token lists with the same shapes drive the parser identically on the
success path. -/
def shapeEq (ts ts2 : List Token) : Prop := ts.map tokShape = ts2.map tokShape

/-- The success component of a run result; two runs agree up to error
payloads when these coincide. -/
def okPart {α : Type} : Except Failure α → Option α
  | .ok a => some a
  | .error _ => none

/-- Reassemble a document from (whitespace gap, lexeme) pairs and a trailing
whitespace gap. -/
def assemble (pairs : List (List Char × List Char)) (wend : List Char) : List Char :=
  pairs.foldr (fun p acc => p.1 ++ p.2 ++ acc) wend

/-- Characters that stop the number scanner no matter where it is: not a
digit, not `.`, not an exponent letter, not a sign.  All whitespace
characters are inert. -/
def numInert (c : Char) : Bool :=
  !c.isDigit && !(c = '.') && !(c = 'e') && !(c = 'E') && !(c = '+') && !(c = '-')

/-- Relation between an original (gap, lexeme) pair and its whitespace-edited
counterpart: same lexeme, the new gap is whitespace, and a gap can only be
erased if it was already empty (inserting whitespace never shrinks a gap). -/
def gapRel (p q : List Char × List Char) : Prop :=
  q.2 = p.2 ∧ q.1.all isWS = true ∧ (q.1 = [] → p.1 = [])

/-- `LexesTo pairs wend pos ts`: starting at position `pos`, the text
`assemble pairs wend` decomposes into whitespace gaps and token lexemes, each
lexeme being scanned by `scanTok` into the corresponding token of `ts` and
stopping exactly at the start of the following gap.  This pins down the
document's actual token boundaries through the lexer itself. -/
inductive LexesTo :
    List (List Char × List Char) → List Char → Pos → List Token → Prop where
  | nil : ∀ wend pos, wend.all isWS = true → LexesTo [] wend pos []
  | cons : ∀ g c l rest wend pos t pos2 ts,
      g.all isWS = true →
      JSONLexer.scanTok c (l ++ assemble rest wend) (advPosList pos g) =
        .ok (t, assemble rest wend, pos2) →
      LexesTo rest wend pos2 ts →
      LexesTo ((g, c :: l) :: rest) wend pos (t :: ts)

/-- Heads of the text following a lexeme, before and after a whitespace edit:
either the very same character (gap empty on both sides, so the same next
lexeme follows), or the new head is whitespace. -/
def follows (rest r2 : List Char) : Prop :=
  r2.head? = rest.head? ∨ ∃ c, r2.head? = some c ∧ isWS c = true

/-- `strBody` step: a closing quote stops the scan. -/
theorem strBody_quote (cs : List Char) (pos : Pos) :
    JSONLexer.strBody ('"' :: cs) pos = .ok ([], cs, advPos pos '"') :=
  JSONLexer.strBody.eq_2 pos cs

/-- `strBody` step: any character other than `"` and `\\` is copied verbatim
and the scan continues. -/
theorem strBody_other (c : Char) (cs : List Char) (pos : Pos) (h1 : c ≠ '"')
    (h2 : c ≠ '\\') :
    JSONLexer.strBody (c :: cs) pos =
      (JSONLexer.strBody cs (advPos pos c)).map (fun r => (c.toNat :: r.1, r.2)) :=
  JSONLexer.strBody.eq_7 pos c cs (fun hc => h1 hc) (fun hc _ => h2 hc)
    (fun _ _ _ _ _ hc _ => h2 hc) (fun _ hc _ => h2 hc) (fun _ _ hc _ => h2 hc)

/-- `strBody` step: a non-`u` escape decodes through the simple-escape table
(or fails with the invalid-escape error). -/
theorem strBody_esc (e : Char) (cs2 : List Char) (pos : Pos) (hu : e ≠ 'u') :
    JSONLexer.strBody ('\\' :: e :: cs2) pos =
      (JSONLexer.simpleEsc e).elim
        (.error (.lexErr ("Invalid escape sequence: \\".push e)
          (advPos (advPos pos '\\') e).1 (advPos (advPos pos '\\') e).2))
        (fun code =>
          (JSONLexer.strBody cs2 (advPos (advPos pos '\\') e)).map
            (fun r => (code :: r.1, r.2))) :=
  JSONLexer.strBody.eq_6 pos e cs2 (fun _ _ _ _ _ he _ => hu he) (fun he => hu he)

/-- A successful `tokenize_string` returns a STRING token. -/
theorem tokenize_string_type (c : Char) (cs : List Char) (pos : Pos)
    (r : Token × List Char × Pos) (h : JSONLexer.tokenize_string c cs pos = .ok r) :
    r.1.type = .STRING := by
  unfold JSONLexer.tokenize_string at h
  cases hb : JSONLexer.strBody cs (advPos pos c) with
  | error e => rw [hb] at h; cases h
  | ok v =>
    rw [hb] at h
    cases h
    rfl

/-- A successful `numFinish` returns a NUMBER token. -/
theorem numFinish_type (lexeme rest : List Char) (pos : Pos)
    (r : Token × List Char × Pos) (h : JSONLexer.numFinish lexeme rest pos = .ok r) :
    r.1.type = .NUMBER := by
  unfold JSONLexer.numFinish at h
  split at h
  · split at h
    · cases h; rfl
    · cases h
  · split at h
    · cases h; rfl
    · cases h

/-- A successful `tokenize_number` returns a NUMBER token. -/
theorem tokenize_number_type (cs : List Char) (pos : Pos)
    (r : Token × List Char × Pos) (h : JSONLexer.tokenize_number cs pos = .ok r) :
    r.1.type = .NUMBER := by
  simp only [JSONLexer.tokenize_number] at h
  cases he : JSONLexer.numExp
      (JSONLexer.numFrac (JSONLexer.numInt (JSONLexer.numMinus cs).2).2).2 with
  | error e => rw [he] at h; cases h
  | ok ep => rw [he] at h; exact numFinish_type _ _ _ _ h

/-- A successful `tokenize_keyword` returns a TRUE, FALSE or NULL token. -/
theorem tokenize_keyword_type (cs : List Char) (pos : Pos)
    (r : Token × List Char × Pos) (h : JSONLexer.tokenize_keyword cs pos = .ok r) :
    r.1.type = .TRUE ∨ r.1.type = .FALSE ∨ r.1.type = .NULL := by
  simp only [JSONLexer.tokenize_keyword] at h
  split_ifs at h
  · cases h; exact Or.inl rfl
  · cases h; exact Or.inr (Or.inl rfl)
  · cases h; exact Or.inr (Or.inr rfl)

/-- `scanTok` never produces an EOF token. -/
theorem scanTok_no_eof (c : Char) (cs : List Char) (pos : Pos)
    (r : Token × List Char × Pos) (h : JSONLexer.scanTok c cs pos = .ok r) :
    r.1.type ≠ .EOF := by
  unfold JSONLexer.scanTok at h
  split_ifs at h
  · cases h; intro hc; cases hc
  · cases h; intro hc; cases hc
  · cases h; intro hc; cases hc
  · cases h; intro hc; cases hc
  · cases h; intro hc; cases hc
  · cases h; intro hc; cases hc
  · rw [tokenize_string_type c cs pos r h]; decide
  · rw [tokenize_number_type (c :: cs) pos r h]; decide
  · rcases tokenize_keyword_type (c :: cs) pos r h with ht | ht | ht <;> rw [ht] <;> decide

/-- Every successful `tokLoop` run ends with exactly one EOF token: the final
sentinel appended after the loop, with no EOF token anywhere before it. -/
theorem tokLoop_eof : ∀ (fuel : Nat) (s : List Char) (pos : Pos) (ts : List Token),
    JSONLexer.tokLoop fuel s pos = .ok ts →
    ∃ ts0 l c, ts = ts0 ++ [⟨.EOF, .none, l, c⟩] ∧ ∀ t ∈ ts0, t.type ≠ .EOF := by
  intro fuel
  induction fuel with
  | zero => intro s pos ts h; cases h
  | succ f ih =>
    intro s pos ts h
    cases s with
    | nil =>
      cases h
      exact ⟨[], pos.1, pos.2, rfl, by intro t ht; cases ht⟩
    | cons c cs =>
      rw [JSONLexer.tokLoop] at h
      by_cases hws : isWS c
      · rw [if_pos hws] at h
        exact ih _ _ _ h
      · rw [if_neg hws] at h
        cases hsc : JSONLexer.scanTok c cs pos with
        | error e => rw [hsc] at h; cases h
        | ok r =>
          rw [hsc] at h
          have h2 : (match JSONLexer.tokLoop f r.2.1 r.2.2 with
              | Except.error e => Except.error e
              | Except.ok ts1 => Except.ok (r.1 :: ts1)) = Except.ok ts := h
          cases hloop : JSONLexer.tokLoop f r.2.1 r.2.2 with
          | error e => rw [hloop] at h2; cases h2
          | ok ts1 =>
            rw [hloop] at h2
            cases h2
            obtain ⟨ts0, l, col, heq, hne⟩ := ih _ _ _ hloop
            refine ⟨r.1 :: ts0, l, col, by rw [heq]; rfl, ?_⟩
            intro t ht
            rcases List.mem_cons.mp ht with hh | hh
            · rw [hh]; exact scanTok_no_eof c cs pos r hsc
            · exact hne t hh

/-- `current_token` always hits an in-bounds index on a nonempty token list. -/
theorem current_token_isSome (ts : List Token) (pos : Nat) (h : ts ≠ []) :
    (JSONParser.current_token ts pos).isSome = true := by
  unfold JSONParser.current_token
  have hlen : 0 < ts.length := List.length_pos.mpr h
  have hmin : min pos (ts.length - 1) ≤ ts.length - 1 := Nat.min_le_right _ _
  have hlt : min pos (ts.length - 1) < ts.length := by omega
  rw [List.get?_eq_get hlt]
  rfl

/-- `peek` always hits an in-bounds index on a nonempty token list. -/
theorem peekTok_isSome (ts : List Token) (pos offset : Nat) (h : ts ≠ []) :
    (JSONParser.peekTok ts pos offset).isSome = true := by
  unfold JSONParser.peekTok
  have hlen : 0 < ts.length := List.length_pos.mpr h
  have hmin : min (pos + offset) (ts.length - 1) ≤ ts.length - 1 := Nat.min_le_right _ _
  have hlt : min (pos + offset) (ts.length - 1) < ts.length := by omega
  rw [List.get?_eq_get hlt]
  rfl

/-- Rebuild a span: a run satisfying `p` followed by a stopper scans to
exactly that run. -/
theorem spanP_append (p : Char → Bool) (d r : List Char) (hd : d.all p = true)
    (hr : ∀ c, r.head? = some c → p c = false) : spanP p (d ++ r) = (d, r) := by
  induction d with
  | nil =>
    cases r with
    | nil => rfl
    | cons c t =>
      have hc : p c = false := hr c rfl
      rw [List.nil_append, spanP, if_neg (by simp [hc])]
  | cons c d2 ih =>
    simp only [List.all_cons, Bool.and_eq_true] at hd
    rw [List.cons_append, spanP, if_pos hd.1, ih hd.2]

/-- Decompose a span: the input splits into the scanned run and a remainder
whose head (if any) fails `p`. -/
theorem spanP_inv (p : Char → Bool) :
    ∀ (s d r : List Char), spanP p s = (d, r) →
      s = d ++ r ∧ d.all p = true ∧ ∀ c, r.head? = some c → p c = false := by
  intro s
  induction s with
  | nil =>
    intro d r h
    cases h
    exact ⟨rfl, rfl, fun c hc => by cases hc⟩
  | cons c cs ih =>
    intro d r h
    rw [spanP] at h
    by_cases hp : p c = true
    · rw [if_pos hp] at h
      obtain ⟨run, rest, hrr⟩ : ∃ a b, spanP p cs = (a, b) := ⟨_, _, rfl⟩
      rw [hrr] at h
      cases h
      obtain ⟨h1, h2, h3⟩ := ih _ _ hrr
      exact ⟨by rw [h1, List.cons_append], by simp [List.all_cons, hp, h2], h3⟩
    · rw [if_neg hp] at h
      cases h
      refine ⟨rfl, rfl, ?_⟩
      intro c2 hc2
      cases hc2
      simpa using hp

/-- Whitespace characters are inert for every scanner probe used by the
lexer: they are not digits, not letters, and none of the characters the
number scanner tests for. -/
theorem isWS_facts (c : Char) (h : isWS c = true) :
    Char.isDigit c = false ∧ Char.isAlpha c = false ∧ c ≠ '-' ∧ c ≠ '0' ∧
      c ≠ '.' ∧ c ≠ 'e' ∧ c ≠ 'E' ∧ c ≠ '+' := by
  simp only [isWS, Bool.or_eq_true, decide_eq_true_eq] at h
  rcases h with ((rfl | rfl) | rfl) | rfl <;> exact ⟨rfl, rfl, by decide⟩

/-- Transport a head-stopper condition across a whitespace edit. -/
theorem follows_pred (rest r2 : List Char) (p : Char → Bool)
    (hf : follows rest r2)
    (hws : ∀ c, isWS c = true → p c = false)
    (hold : ∀ c, rest.head? = some c → p c = false) :
    ∀ c, r2.head? = some c → p c = false := by
  intro c hc
  rcases hf with hf | ⟨c2, hc2, hw⟩
  · exact hold c (by rw [← hf]; exact hc)
  · rw [hc] at hc2
    cases hc2
    exact hws c hw

/-- A whitespace edit never turns a present head into end of input. -/
theorem follows_some (rest r2 : List Char) (hf : follows rest r2) (h : rest ≠ []) :
    ∃ c, r2.head? = some c ∧ (rest.head? = some c ∨ isWS c = true) := by
  rcases hf with hf | ⟨c, hc, hw⟩
  · cases rest with
    | nil => exact absurd rfl h
    | cons c t => exact ⟨c, by rw [hf]; rfl, Or.inl rfl⟩
  · exact ⟨c, hc, Or.inr hw⟩

/-- A character cannot be a digit and some fixed non-digit at once. -/
theorem digit_ne (c : Char) (h : Char.isDigit c = true) (x : Char)
    (hx : Char.isDigit x = false) : c ≠ x := by
  intro he
  rw [he, hx] at h
  cases h

/-- Transport of "the head is not this character" across a whitespace edit
and an intervening already-scanned segment. -/
theorem head_ne_transport (s mid rest r2 : List Char) (x : Char)
    (hs : s = mid ++ rest) (hf : follows rest r2) (hx : isWS x = false)
    (hstop : s.head? ≠ some x) : (mid ++ r2).head? ≠ some x := by
  cases mid with
  | nil =>
    rw [List.nil_append]
    intro hcon
    rcases hf with hfeq | ⟨c2, hc2, hw⟩
    · exact hstop (by rw [hs, List.nil_append, ← hfeq]; exact hcon)
    · rw [hc2] at hcon
      cases hcon
      rw [hw] at hx
      cases hx
  | cons c t =>
    intro hcon
    rw [List.cons_append] at hcon
    cases hcon
    exact hstop (by rw [hs]; rfl)

/-- Transport of a span stopper across a whitespace edit and an intervening
already-scanned segment. -/
theorem stop_transport (s mid rest r2 : List Char) (p : Char → Bool)
    (hs : s = mid ++ rest) (hf : follows rest r2)
    (hws : ∀ c, isWS c = true → p c = false)
    (hstop : ∀ c, s.head? = some c → p c = false) :
    ∀ c, (mid ++ r2).head? = some c → p c = false := by
  cases mid with
  | nil =>
    rw [List.nil_append]
    refine follows_pred rest r2 p hf hws ?_
    intro c hc
    exact hstop c (by rw [hs, List.nil_append]; exact hc)
  | cons c t =>
    intro c2 hc2
    rw [List.cons_append] at hc2
    cases hc2
    exact hstop c (by rw [hs]; rfl)

/-- The minus stage when the head is not `-`. -/
theorem numMinus_other (s : List Char) (h : s.head? ≠ some '-') :
    JSONLexer.numMinus s = ([], s) := by
  refine JSONLexer.numMinus.eq_2 s ?_
  intro t2 heq
  rw [heq] at h
  exact h rfl

/-- The integer stage when the head is not `0`. -/
theorem numInt_other (s : List Char) (h : s.head? ≠ some '0') :
    JSONLexer.numInt s = spanP Char.isDigit s := by
  refine JSONLexer.numInt.eq_2 s ?_
  intro t2 heq
  rw [heq] at h
  exact h rfl

/-- The fraction stage when the head is not `.`. -/
theorem numFrac_other (s : List Char) (h : s.head? ≠ some '.') :
    JSONLexer.numFrac s = ([], s) := by
  refine JSONLexer.numFrac.eq_2 s ?_
  intro t2 heq
  rw [heq] at h
  exact h rfl

/-- Decomposition of the minus stage. -/
theorem numMinus_inv (s m s1 : List Char) (h : JSONLexer.numMinus s = (m, s1)) :
    (m = ['-'] ∧ s = '-' :: s1) ∨ (m = [] ∧ s1 = s ∧ s.head? ≠ some '-') := by
  cases s with
  | nil =>
    cases h
    exact Or.inr ⟨rfl, rfl, by intro hc; cases hc⟩
  | cons c t =>
    by_cases hc : c = '-'
    · subst hc
      rw [JSONLexer.numMinus.eq_1] at h
      cases h
      exact Or.inl ⟨rfl, rfl⟩
    · have hne : (c :: t).head? ≠ some '-' := fun hh => hc (Option.some.inj hh)
      rw [numMinus_other _ hne] at h
      cases h
      exact Or.inr ⟨rfl, rfl, hne⟩

/-- Decomposition of the integer stage. -/
theorem numInt_inv (s1 ip s2 : List Char) (h : JSONLexer.numInt s1 = (ip, s2)) :
    (ip = ['0'] ∧ s1 = '0' :: s2) ∨
      (s1.head? ≠ some '0' ∧ spanP Char.isDigit s1 = (ip, s2)) := by
  cases s1 with
  | nil =>
    cases h
    exact Or.inr ⟨(by intro hc; cases hc), rfl⟩
  | cons c t =>
    by_cases hc : c = '0'
    · subst hc
      rw [JSONLexer.numInt.eq_1] at h
      cases h
      exact Or.inl ⟨rfl, rfl⟩
    · have hne : (c :: t).head? ≠ some '0' := fun hh => hc (Option.some.inj hh)
      rw [numInt_other _ hne] at h
      exact Or.inr ⟨hne, h⟩

/-- Decomposition of the fraction stage. -/
theorem numFrac_inv (s2 fp s3 : List Char) (h : JSONLexer.numFrac s2 = (fp, s3)) :
    (∃ t, s2 = '.' :: t ∧ fp = '.' :: (spanP Char.isDigit t).1 ∧
      s3 = (spanP Char.isDigit t).2) ∨
      (fp = [] ∧ s3 = s2 ∧ s2.head? ≠ some '.') := by
  cases s2 with
  | nil =>
    cases h
    exact Or.inr ⟨rfl, rfl, by intro hc; cases hc⟩
  | cons c t =>
    by_cases hc : c = '.'
    · subst hc
      rw [JSONLexer.numFrac.eq_1] at h
      cases h
      exact Or.inl ⟨t, rfl, rfl, rfl⟩
    · have hne : (c :: t).head? ≠ some '.' := fun hh => hc (Option.some.inj hh)
      rw [numFrac_other _ hne] at h
      cases h
      exact Or.inr ⟨rfl, rfl, hne⟩

/-- Rebuild of the minus stage against a new continuation. -/
theorem numMinus_rebuild (s m s1 : List Char) (hm : JSONLexer.numMinus s = (m, s1))
    (mid rest r2 : List Char) (hs1 : s1 = mid ++ rest) (hf : follows rest r2) :
    JSONLexer.numMinus (m ++ (mid ++ r2)) = (m, mid ++ r2) := by
  rcases numMinus_inv s m s1 hm with ⟨hm1, hs⟩ | ⟨hm1, hs, hh⟩
  · subst hm1
    exact JSONLexer.numMinus.eq_1 _
  · subst hm1
    rw [List.nil_append]
    refine numMinus_other _ ?_
    refine head_ne_transport s mid rest r2 '-' ?_ hf (by decide) hh
    rw [← hs, hs1]

/-- Rebuild of the integer stage against a new continuation. -/
theorem numInt_rebuild (s1 ip s2 : List Char) (hip : JSONLexer.numInt s1 = (ip, s2))
    (mid rest r2 : List Char) (hs2 : s2 = mid ++ rest) (hf : follows rest r2) :
    JSONLexer.numInt (ip ++ (mid ++ r2)) = (ip, mid ++ r2) := by
  rcases numInt_inv s1 ip s2 hip with ⟨h1, _⟩ | ⟨hh, hsp⟩
  · subst h1
    exact JSONLexer.numInt.eq_1 _
  · obtain ⟨hsplit, hall, hstop⟩ := spanP_inv _ _ _ _ hsp
    have hstop2 : ∀ c, (mid ++ r2).head? = some c → Char.isDigit c = false :=
      stop_transport s2 mid rest r2 _ hs2 hf (fun c h => (isWS_facts c h).1) hstop
    have hhd : (ip ++ (mid ++ r2)).head? ≠ some '0' := by
      cases ip with
      | cons c t =>
        intro hcon
        rw [List.cons_append] at hcon
        cases hcon
        exact hh (by rw [hsplit]; rfl)
      | nil =>
        rw [List.nil_append]
        intro hcon
        have := hstop2 '0' hcon
        cases this
    rw [numInt_other _ hhd]
    exact spanP_append _ _ _ hall hstop2

/-- Rebuild of the fraction stage against a new continuation. -/
theorem numFrac_rebuild (s2 fp s3 : List Char) (hfp : JSONLexer.numFrac s2 = (fp, s3))
    (mid rest r2 : List Char) (hs3 : s3 = mid ++ rest) (hf : follows rest r2) :
    JSONLexer.numFrac (fp ++ (mid ++ r2)) = (fp, mid ++ r2) := by
  rcases numFrac_inv s2 fp s3 hfp with ⟨t, hs2, hfp1, hs3'⟩ | ⟨hfp1, hs3', hh⟩
  · obtain ⟨d, r, hsp⟩ : ∃ a b, spanP Char.isDigit t = (a, b) := ⟨_, _, rfl⟩
    rw [hsp] at hfp1 hs3'
    dsimp only at hfp1 hs3'
    subst hfp1
    obtain ⟨hsplit, hall, hstop⟩ := spanP_inv _ _ _ _ hsp
    have hstop2 : ∀ c, (mid ++ r2).head? = some c → Char.isDigit c = false :=
      stop_transport r mid rest r2 _ (by rw [← hs3', hs3]) hf
        (fun c h => (isWS_facts c h).1) hstop
    rw [List.cons_append, JSONLexer.numFrac.eq_1,
      spanP_append _ _ _ hall hstop2]
  · subst hfp1
    rw [List.nil_append]
    refine numFrac_other _ ?_
    refine head_ne_transport s2 mid rest r2 '.' ?_ hf (by decide) hh
    rw [← hs3', hs3]

/-- The exponent stage at a head that is not an exponent letter consumes
nothing and succeeds. -/
theorem numExp_none (r2 : List Char) (c2 : Char) (hh : r2.head? = some c2)
    (he : (decide (c2 = 'e') || decide (c2 = 'E')) = false) :
    JSONLexer.numExp r2 = .ok ([], r2) := by
  cases r2 with
  | nil => cases hh
  | cons x t =>
    cases hh
    cases t with
    | nil => rw [JSONLexer.numExp.eq_2, if_neg (by simp [he])]
    | cons y t2 => rw [JSONLexer.numExp.eq_3, if_neg (by simp [he])]

/-- A successful exponent stage consumes an initial segment. -/
theorem numExp_split (s3 ep rest : List Char)
    (h : JSONLexer.numExp s3 = .ok (ep, rest)) : s3 = ep ++ rest := by
  cases s3 with
  | nil => cases h
  | cons c t =>
    cases t with
    | nil =>
      rw [JSONLexer.numExp.eq_2] at h
      by_cases he : (decide (c = 'e') || decide (c = 'E')) = true
      · rw [if_pos he] at h; cases h
      · rw [if_neg he] at h
        cases h
        rfl
    | cons c2 t2 =>
      rw [JSONLexer.numExp.eq_3] at h
      by_cases he : (decide (c = 'e') || decide (c = 'E')) = true
      · rw [if_pos he] at h
        dsimp only at h
        by_cases hsg : (decide (c2 = '+') || decide (c2 = '-')) = true
        · rw [if_pos hsg] at h
          obtain ⟨d, r, hsp⟩ : ∃ a b, spanP Char.isDigit t2 = (a, b) := ⟨_, _, rfl⟩
          rw [hsp] at h
          dsimp only at h
          cases h
          obtain ⟨hsplit, _, _⟩ := spanP_inv _ _ _ _ hsp
          rw [hsplit]
          rfl
        · rw [if_neg hsg] at h
          obtain ⟨d, r, hsp⟩ : ∃ a b, spanP Char.isDigit (c2 :: t2) = (a, b) := ⟨_, _, rfl⟩
          rw [hsp] at h
          dsimp only at h
          cases h
          obtain ⟨hsplit, _, _⟩ := spanP_inv _ _ _ _ hsp
          rw [List.cons_append, List.nil_append, ← hsplit]
      · rw [if_neg he] at h
        cases h
        rfl

/-- Rebuild of the exponent stage against a new continuation. -/
theorem numExp_rebuild (s3 ep rest : List Char)
    (hexp : JSONLexer.numExp s3 = .ok (ep, rest)) (r2 : List Char)
    (hf : follows rest r2) : JSONLexer.numExp (ep ++ r2) = .ok (ep, r2) := by
  cases s3 with
  | nil => cases hexp
  | cons c t =>
    cases t with
    | nil =>
      rw [JSONLexer.numExp.eq_2] at hexp
      by_cases he : (decide (c = 'e') || decide (c = 'E')) = true
      · rw [if_pos he] at hexp; cases hexp
      · rw [if_neg he] at hexp
        cases hexp
        rw [List.nil_append]
        obtain ⟨c2, hc2, hcase⟩ := follows_some [c] r2 hf (by simp)
        refine numExp_none r2 c2 hc2 ?_
        rcases hcase with hsame | hw
        · rw [show ([c] : List Char).head? = some c from rfl] at hsame
          cases hsame
          simpa using he
        · have hfx := isWS_facts c2 hw
          simp [hfx.2.2.2.2.2.1, hfx.2.2.2.2.2.2.1]
    | cons c2 t2 =>
      rw [JSONLexer.numExp.eq_3] at hexp
      by_cases he : (decide (c = 'e') || decide (c = 'E')) = true
      case neg =>
        rw [if_neg he] at hexp
        cases hexp
        rw [List.nil_append]
        obtain ⟨c', hc', hcase⟩ := follows_some (c :: c2 :: t2) r2 hf (by simp)
        refine numExp_none r2 c' hc' ?_
        rcases hcase with hsame | hw
        · rw [show (c :: c2 :: t2).head? = some c from rfl] at hsame
          cases hsame
          simpa using he
        · have hfx := isWS_facts c' hw
          simp [hfx.2.2.2.2.2.1, hfx.2.2.2.2.2.2.1]
      case pos =>
        rw [if_pos he] at hexp
        dsimp only at hexp
        by_cases hsg : (decide (c2 = '+') || decide (c2 = '-')) = true
        · rw [if_pos hsg] at hexp
          obtain ⟨d, r, hsp⟩ : ∃ a b, spanP Char.isDigit t2 = (a, b) := ⟨_, _, rfl⟩
          rw [hsp] at hexp
          dsimp only at hexp
          obtain ⟨hep, hrest⟩ := Prod.ext_iff.mp (Except.ok.inj hexp)
          dsimp only at hep hrest
          subst hep
          have hrest2 : rest = r := hrest.symm
          subst hrest2
          obtain ⟨hsplit, hall, hstop⟩ := spanP_inv _ _ _ _ hsp
          have hstop2 : ∀ x, r2.head? = some x → Char.isDigit x = false :=
            follows_pred rest r2 _ hf (fun x hx => (isWS_facts x hx).1) hstop
          rw [show (c :: ([c2] ++ d)) ++ r2 = c :: c2 :: (d ++ r2) by simp]
          rw [JSONLexer.numExp.eq_3, if_pos he]
          dsimp only
          rw [if_pos hsg]
          dsimp only
          rw [spanP_append _ _ _ hall hstop2]
        · rw [if_neg hsg] at hexp
          obtain ⟨d, r, hsp⟩ : ∃ a b, spanP Char.isDigit (c2 :: t2) = (a, b) := ⟨_, _, rfl⟩
          rw [hsp] at hexp
          dsimp only at hexp
          obtain ⟨hep, hrest⟩ := Prod.ext_iff.mp (Except.ok.inj hexp)
          dsimp only at hep hrest
          subst hep
          have hrest2 : rest = r := hrest.symm
          subst hrest2
          obtain ⟨hsplit, hall, hstop⟩ := spanP_inv _ _ _ _ hsp
          have hstop2 : ∀ x, r2.head? = some x → Char.isDigit x = false :=
            follows_pred rest r2 _ hf (fun x hx => (isWS_facts x hx).1) hstop
          cases d with
          | nil =>
            have hr : rest = c2 :: t2 := by rw [hsplit]; rfl
            obtain ⟨c', hc', hcase⟩ := follows_some rest r2 hf (by rw [hr]; simp)
            cases r2 with
            | nil => cases hc'
            | cons x t' =>
              have hx2 : x = c' := Option.some.inj hc'
              subst hx2
              rw [show (c :: ([] ++ ([] : List Char))) ++ x :: t' = c :: x :: t' by simp]
              rw [JSONLexer.numExp.eq_3, if_pos he]
              dsimp only
              have hsgx : (decide (x = '+') || decide (x = '-')) = false := by
                rcases hcase with hsame | hw
                · rw [hr] at hsame
                  have hxc : c2 = x := Option.some.inj hsame
                  subst hxc
                  simpa using hsg
                · have hfx := isWS_facts x hw
                  simp [hfx.2.2.1, hfx.2.2.2.2.2.2.2]
              rw [if_neg (by simp [hsgx])]
              dsimp only
              have hx : Char.isDigit x = false := hstop2 x rfl
              rw [show spanP Char.isDigit (x :: t') = ([], x :: t') by
                rw [spanP, if_neg (by simp [hx])]]
          | cons dc dt =>
            have hc2dc : c2 = dc ∧ t2 = dt ++ rest := by
              rw [List.cons_append] at hsplit
              exact ⟨List.head_eq_of_cons_eq hsplit, List.tail_eq_of_cons_eq hsplit⟩
            obtain ⟨hdc, hdt⟩ := hc2dc
            subst hdc
            have hdcd : Char.isDigit c2 = true := by
              simp only [List.all_cons, Bool.and_eq_true] at hall
              exact hall.1
            rw [show (c :: (([] : List Char) ++ c2 :: dt)) ++ r2 = c :: c2 :: (dt ++ r2) by simp]
            rw [JSONLexer.numExp.eq_3, if_pos he]
            dsimp only
            rw [if_neg (by simp [digit_ne c2 hdcd '+' (by decide), digit_ne c2 hdcd '-' (by decide)])]
            dsimp only
            rw [show c2 :: (dt ++ r2) = (c2 :: dt) ++ r2 from rfl,
              spanP_append _ _ _ hall hstop2]

/-- Shape of a successful conversion step: the remainder passes through, the
token is a NUMBER whose value depends only on the lexeme, the lexeme is
nonempty, and the same lexeme converts identically against any remainder and
start position. -/
theorem numFinish_shape (lex rest : List Char) (pos : Pos) (t : Token)
    (rest2 : List Char) (q : Pos)
    (h : JSONLexer.numFinish lex rest pos = .ok (t, rest2, q)) :
    rest2 = rest ∧ t.type = .NUMBER ∧ lex ≠ [] ∧
      ∀ (rest3 : List Char) (p2 : Pos), ∃ t2 q2,
        JSONLexer.numFinish lex rest3 p2 = .ok (t2, rest3, q2) ∧
          t2.type = t.type ∧ t2.value = t.value := by
  simp only [JSONLexer.numFinish] at h
  by_cases hc : (lex.contains '.' || lex.contains 'e' || lex.contains 'E') = true
  · rw [if_pos hc] at h
    by_cases hfl : pyFloatOk (String.mk lex) = true
    · rw [if_pos hfl] at h
      cases h
      refine ⟨rfl, rfl, ?_, ?_⟩
      · intro hl
        subst hl
        exact absurd hc (by decide)
      · intro rest3 p2
        refine ⟨⟨.NUMBER, .float (String.mk lex), p2.1, p2.2⟩, advPosList p2 lex, ?_, rfl, rfl⟩
        simp only [JSONLexer.numFinish]
        rw [if_pos hc, if_pos hfl]
    · rw [if_neg hfl] at h
      cases h
  · rw [if_neg hc] at h
    cases hpi : pyIntDec (String.mk lex) with
    | none =>
      rw [hpi] at h
      cases h
    | some n =>
      rw [hpi] at h
      dsimp only at h
      cases h
      refine ⟨rfl, rfl, ?_, ?_⟩
      · intro hl
        subst hl
        cases hpi
      · intro rest3 p2
        refine ⟨⟨.NUMBER, .int n, p2.1, p2.2⟩, advPosList p2 lex, ?_, rfl, rfl⟩
        simp only [JSONLexer.numFinish]
        rw [if_neg hc, hpi]

/-- Exchange lemma for the number scanner: a successful scan consumes a
nonempty lexeme, and against any continuation with a compatible head (the
same character, or whitespace inserted by an edit) the same lexeme is scanned
again into a token of the same type and value. -/
theorem tokenize_number_exchange (s : List Char) (pos : Pos) (t : Token)
    (rest : List Char) (q : Pos)
    (h : JSONLexer.tokenize_number s pos = .ok (t, rest, q)) :
    ∃ pre, pre ≠ [] ∧ s = pre ++ rest ∧ ∀ (r2 : List Char) (p2 : Pos), follows rest r2 →
      ∃ t2 q2, JSONLexer.tokenize_number (pre ++ r2) p2 = .ok (t2, r2, q2) ∧
        t2.type = t.type ∧ t2.value = t.value := by
  obtain ⟨m, s1, hm⟩ : ∃ a b, JSONLexer.numMinus s = (a, b) := ⟨_, _, rfl⟩
  obtain ⟨ip, s2, hip⟩ : ∃ a b, JSONLexer.numInt s1 = (a, b) := ⟨_, _, rfl⟩
  obtain ⟨fp, s3, hfp⟩ : ∃ a b, JSONLexer.numFrac s2 = (a, b) := ⟨_, _, rfl⟩
  simp only [JSONLexer.tokenize_number, hm, hip, hfp] at h
  cases hexp : JSONLexer.numExp s3 with
  | error e =>
    rw [hexp] at h
    cases h
  | ok epr =>
    obtain ⟨ep, rest1⟩ := epr
    rw [hexp] at h
    dsimp only at h
    obtain ⟨hrest, htype, hne, hrebuild⟩ := numFinish_shape _ _ _ _ _ _ h
    subst hrest
    have hsm : s = m ++ s1 := by
      rcases numMinus_inv _ _ _ hm with ⟨h1, h2⟩ | ⟨h1, h2, _⟩ <;> simp [h1, h2]
    have hs1 : s1 = ip ++ s2 := by
      rcases numInt_inv _ _ _ hip with ⟨h1, h2⟩ | ⟨_, hsp⟩
      · simp [h1, h2]
      · exact (spanP_inv _ _ _ _ hsp).1
    have hs2 : s2 = fp ++ s3 := by
      rcases numFrac_inv _ _ _ hfp with ⟨t0, h1, h2, h3⟩ | ⟨h1, h2, _⟩
      · obtain ⟨d, r, hsp⟩ : ∃ a b, spanP Char.isDigit t0 = (a, b) := ⟨_, _, rfl⟩
        rw [hsp] at h2 h3
        dsimp only at h2 h3
        obtain ⟨hsplit, _, _⟩ := spanP_inv _ _ _ _ hsp
        rw [h1, h2, h3, hsplit]
        rfl
      · simp [h1, h2]
    have hs3 : s3 = ep ++ rest := numExp_split _ _ _ hexp
    refine ⟨m ++ ip ++ fp ++ ep, hne, ?_, ?_⟩
    · rw [hsm, hs1, hs2, hs3]
      simp [List.append_assoc]
    · intro r2 p2 hf
      have hmr := numMinus_rebuild s m s1 hm (ip ++ (fp ++ ep)) rest r2
        (by rw [hs1, hs2, hs3]; simp [List.append_assoc]) hf
      have hir := numInt_rebuild s1 ip s2 hip (fp ++ ep) rest r2
        (by rw [hs2, hs3]; simp [List.append_assoc]) hf
      have hfr := numFrac_rebuild s2 fp s3 hfp ep rest r2 hs3 hf
      have her := numExp_rebuild s3 ep rest hexp r2 hf
      obtain ⟨t2, q2, hfin, hty, hval⟩ := hrebuild r2 p2
      refine ⟨t2, q2, ?_, hty, hval⟩
      simp only [List.append_assoc] at hmr hir hfr her hfin ⊢
      simp only [JSONLexer.tokenize_number, hmr, hir, hfr, her, List.append_assoc]
      exact hfin

/-- Exchange lemma for the keyword scanner: a successful scan consumes a
nonempty alphabetic run, and against any continuation with a compatible head
the same run is scanned again into the same keyword token. -/
theorem tokenize_keyword_exchange (s : List Char) (pos : Pos) (t : Token)
    (rest : List Char) (q : Pos)
    (h : JSONLexer.tokenize_keyword s pos = .ok (t, rest, q)) :
    ∃ pre, pre ≠ [] ∧ s = pre ++ rest ∧ ∀ (r2 : List Char) (p2 : Pos), follows rest r2 →
      ∃ t2 q2, JSONLexer.tokenize_keyword (pre ++ r2) p2 = .ok (t2, r2, q2) ∧
        t2.type = t.type ∧ t2.value = t.value := by
  obtain ⟨run, r, hsp⟩ : ∃ a b, spanP Char.isAlpha s = (a, b) := ⟨_, _, rfl⟩
  simp only [JSONLexer.tokenize_keyword, hsp] at h
  obtain ⟨hsplit, hall, hstop⟩ := spanP_inv _ _ _ _ hsp
  have hspan2 : ∀ r2, follows r r2 → spanP Char.isAlpha (run ++ r2) = (run, r2) :=
    fun r2 hf => spanP_append _ _ _ hall
      (follows_pred r r2 _ hf (fun c hc => (isWS_facts c hc).2.1) hstop)
  by_cases h1 : run = ['t', 'r', 'u', 'e']
  · rw [if_pos h1] at h
    cases h
    refine ⟨run, by simp [h1], hsplit, ?_⟩
    intro r2 p2 hf
    refine ⟨⟨.TRUE, .bool true, p2.1, p2.2⟩, advPosList p2 run, ?_, rfl, rfl⟩
    simp only [JSONLexer.tokenize_keyword, hspan2 r2 hf]
    rw [if_pos h1]
  · rw [if_neg h1] at h
    by_cases h2 : run = ['f', 'a', 'l', 's', 'e']
    · rw [if_pos h2] at h
      cases h
      refine ⟨run, by simp [h2], hsplit, ?_⟩
      intro r2 p2 hf
      refine ⟨⟨.FALSE, .bool false, p2.1, p2.2⟩, advPosList p2 run, ?_, rfl, rfl⟩
      simp only [JSONLexer.tokenize_keyword, hspan2 r2 hf]
      rw [if_neg h1, if_pos h2]
    · rw [if_neg h2] at h
      by_cases h3 : run = ['n', 'u', 'l', 'l']
      · rw [if_pos h3] at h
        cases h
        refine ⟨run, by simp [h3], hsplit, ?_⟩
        intro r2 p2 hf
        refine ⟨⟨.NULL, .none, p2.1, p2.2⟩, advPosList p2 run, ?_, rfl, rfl⟩
        simp only [JSONLexer.tokenize_keyword, hspan2 r2 hf]
        rw [if_neg h1, if_neg h2, if_pos h3]
      · rw [if_neg h3] at h
        cases h

/-- Exchange lemma for the string-body scanner: the consumed part of a
successful scan re-scans to the same decoded value against any continuation
whatsoever (the scan never looks past the closing quote). -/
theorem strBody_exchange : ∀ (n : Nat) (s : List Char) (pos : Pos) (v : Str)
    (rest : List Char) (q : Pos), s.length ≤ n →
    JSONLexer.strBody s pos = .ok (v, rest, q) →
    ∃ pre, s = pre ++ rest ∧ ∀ (r2 : List Char) (p2 : Pos), ∃ q2,
      JSONLexer.strBody (pre ++ r2) p2 = .ok (v, r2, q2) := by
  intro n
  induction n with
  | zero =>
    intro s pos v rest q hlen h
    cases s with
    | nil => cases h
    | cons c cs => simp at hlen
  | succ nn ih =>
    intro s pos v rest q hlen h
    cases s with
    | nil => cases h
    | cons c cs =>
      by_cases hq : c = '"'
      · subst hq
        rw [strBody_quote] at h
        cases h
        refine ⟨['"'], rfl, ?_⟩
        intro r2 p2
        exact ⟨advPos p2 '"', strBody_quote r2 p2⟩
      · by_cases hb : c = '\\'
        · subst hb
          cases cs with
          | nil =>
            rw [JSONLexer.strBody.eq_3] at h
            cases h
          | cons e cs2 =>
            by_cases hu : e = 'u'
            · subst hu
              match cs2 with
              | [] =>
                rw [JSONLexer.strBody.eq_5 pos [] (by intro a b c2 d cs3 heq; cases heq)] at h
                cases h
              | [a] =>
                rw [JSONLexer.strBody.eq_5 pos [a] (by intro a2 b c2 d cs3 heq; cases heq)] at h
                cases h
              | [a, b] =>
                rw [JSONLexer.strBody.eq_5 pos [a, b]
                  (by intro a2 b2 c2 d cs3 heq; cases heq)] at h
                cases h
              | [a, b, c2] =>
                rw [JSONLexer.strBody.eq_5 pos [a, b, c2]
                  (by intro a2 b2 c3 d cs3 heq; cases heq)] at h
                cases h
              | a :: b :: c2 :: d :: cs3 =>
                rw [JSONLexer.strBody.eq_4] at h
                cases hhex : pyIntHex (String.mk [a, b, c2, d]) with
                | none =>
                  rw [hhex] at h
                  cases h
                | some m =>
                  rw [hhex] at h
                  dsimp only [Option.elim] at h
                  cases hchr : pyChr m with
                  | none =>
                    rw [hchr] at h
                    cases h
                  | some code =>
                    rw [hchr] at h
                    dsimp only [Option.elim] at h
                    cases hstr : JSONLexer.strBody cs3
                        (advPos (advPos (advPos (advPos (advPos (advPos pos '\\') 'u') a) b) c2) d) with
                    | error e2 =>
                      rw [hstr] at h
                      cases h
                    | ok vr =>
                      rw [hstr] at h
                      obtain ⟨v1, rest1, q1⟩ := vr
                      dsimp only [Except.map] at h
                      cases h
                      obtain ⟨pre1, hpre1, hreb⟩ := ih cs3 _ v1 rest q
                        (by simp at hlen; omega) hstr
                      refine ⟨'\\' :: 'u' :: a :: b :: c2 :: d :: pre1, by rw [hpre1]; rfl, ?_⟩
                      intro r2 p2
                      obtain ⟨q2, hq2⟩ := hreb r2
                        (advPos (advPos (advPos (advPos (advPos (advPos p2 '\\') 'u') a) b) c2) d)
                      refine ⟨q2, ?_⟩
                      rw [show ('\\' :: 'u' :: a :: b :: c2 :: d :: pre1) ++ r2 =
                        '\\' :: 'u' :: a :: b :: c2 :: d :: (pre1 ++ r2) from rfl]
                      rw [JSONLexer.strBody.eq_4, hhex]
                      dsimp only [Option.elim]
                      rw [hchr]
                      dsimp only [Option.elim]
                      rw [hq2]
                      rfl
            · rw [strBody_esc e cs2 pos hu] at h
              cases hesc : JSONLexer.simpleEsc e with
              | none =>
                rw [hesc] at h
                cases h
              | some code =>
                rw [hesc] at h
                dsimp only [Option.elim] at h
                cases hstr : JSONLexer.strBody cs2 (advPos (advPos pos '\\') e) with
                | error e2 =>
                  rw [hstr] at h
                  cases h
                | ok vr =>
                  rw [hstr] at h
                  obtain ⟨v1, rest1, q1⟩ := vr
                  dsimp only [Except.map] at h
                  cases h
                  obtain ⟨pre1, hpre1, hreb⟩ := ih cs2 _ v1 rest q
                    (by simp at hlen; omega) hstr
                  refine ⟨'\\' :: e :: pre1, by rw [hpre1]; rfl, ?_⟩
                  intro r2 p2
                  obtain ⟨q2, hq2⟩ := hreb r2 (advPos (advPos p2 '\\') e)
                  refine ⟨q2, ?_⟩
                  rw [show ('\\' :: e :: pre1) ++ r2 = '\\' :: e :: (pre1 ++ r2) from rfl]
                  rw [strBody_esc e (pre1 ++ r2) p2 hu, hesc]
                  dsimp only [Option.elim]
                  rw [hq2]
                  rfl
        · rw [strBody_other c cs pos hq hb] at h
          cases hstr : JSONLexer.strBody cs (advPos pos c) with
          | error e2 =>
            rw [hstr] at h
            cases h
          | ok vr =>
            rw [hstr] at h
            obtain ⟨v1, rest1, q1⟩ := vr
            dsimp only [Except.map] at h
            cases h
            obtain ⟨pre1, hpre1, hreb⟩ := ih cs _ v1 rest q (by simp at hlen; omega) hstr
            refine ⟨c :: pre1, by rw [hpre1]; rfl, ?_⟩
            intro r2 p2
            obtain ⟨q2, hq2⟩ := hreb r2 (advPos p2 c)
            refine ⟨q2, ?_⟩
            rw [show (c :: pre1) ++ r2 = c :: (pre1 ++ r2) from rfl]
            rw [strBody_other c (pre1 ++ r2) p2 hq hb, hq2]
            rfl

/-- Exchange lemma for `tokenize_string`. -/
theorem tokenize_string_exchange (c : Char) (cs : List Char) (pos : Pos) (t : Token)
    (rest : List Char) (q : Pos)
    (h : JSONLexer.tokenize_string c cs pos = .ok (t, rest, q)) :
    ∃ pre, cs = pre ++ rest ∧ ∀ (r2 : List Char) (p2 : Pos), ∃ t2 q2,
      JSONLexer.tokenize_string c (pre ++ r2) p2 = .ok (t2, r2, q2) ∧
        t2.type = t.type ∧ t2.value = t.value := by
  simp only [JSONLexer.tokenize_string] at h
  cases hstr : JSONLexer.strBody cs (advPos pos c) with
  | error e2 =>
    rw [hstr] at h
    cases h
  | ok vr =>
    rw [hstr] at h
    obtain ⟨v1, rest1, q1⟩ := vr
    dsimp only [Except.map] at h
    cases h
    obtain ⟨pre1, hpre1, hreb⟩ := strBody_exchange cs.length cs _ v1 rest q le_rfl hstr
    refine ⟨pre1, hpre1, ?_⟩
    intro r2 p2
    obtain ⟨q2, hq2⟩ := hreb r2 (advPos p2 c)
    refine ⟨⟨.STRING, .str v1, p2.1, p2.2⟩, q2, ?_, rfl, rfl⟩
    simp only [JSONLexer.tokenize_string, hq2]
    rfl

/-- Exchange lemma for one dispatch step of the lexer: the lexeme a
successful `scanTok` consumes re-scans, against any continuation with a
compatible head, to a token of the same type and value. -/
theorem scanTok_exchange (c : Char) (cs : List Char) (pos : Pos) (t : Token)
    (rest : List Char) (q : Pos)
    (h : JSONLexer.scanTok c cs pos = .ok (t, rest, q)) :
    ∃ pre, cs = pre ++ rest ∧ ∀ (r2 : List Char) (p2 : Pos), follows rest r2 →
      ∃ t2 q2, JSONLexer.scanTok c (pre ++ r2) p2 = .ok (t2, r2, q2) ∧
        t2.type = t.type ∧ t2.value = t.value := by
  unfold JSONLexer.scanTok at h
  split_ifs at h with h1 h2 h3 h4 h5 h6 h7 h8 h9
  · cases h
    refine ⟨[], rfl, ?_⟩
    intro r2 p2 hf
    refine ⟨⟨.LBRACE, .char '{', p2.1, p2.2⟩, advPos p2 c, ?_, rfl, rfl⟩
    rw [List.nil_append]
    unfold JSONLexer.scanTok
    rw [if_pos h1]
  · cases h
    refine ⟨[], rfl, ?_⟩
    intro r2 p2 hf
    refine ⟨⟨.RBRACE, .char '}', p2.1, p2.2⟩, advPos p2 c, ?_, rfl, rfl⟩
    rw [List.nil_append]
    unfold JSONLexer.scanTok
    rw [if_neg h1, if_pos h2]
  · cases h
    refine ⟨[], rfl, ?_⟩
    intro r2 p2 hf
    refine ⟨⟨.LBRACKET, .char '[', p2.1, p2.2⟩, advPos p2 c, ?_, rfl, rfl⟩
    rw [List.nil_append]
    unfold JSONLexer.scanTok
    rw [if_neg h1, if_neg h2, if_pos h3]
  · cases h
    refine ⟨[], rfl, ?_⟩
    intro r2 p2 hf
    refine ⟨⟨.RBRACKET, .char ']', p2.1, p2.2⟩, advPos p2 c, ?_, rfl, rfl⟩
    rw [List.nil_append]
    unfold JSONLexer.scanTok
    rw [if_neg h1, if_neg h2, if_neg h3, if_pos h4]
  · cases h
    refine ⟨[], rfl, ?_⟩
    intro r2 p2 hf
    refine ⟨⟨.COLON, .char ':', p2.1, p2.2⟩, advPos p2 c, ?_, rfl, rfl⟩
    rw [List.nil_append]
    unfold JSONLexer.scanTok
    rw [if_neg h1, if_neg h2, if_neg h3, if_neg h4, if_pos h5]
  · cases h
    refine ⟨[], rfl, ?_⟩
    intro r2 p2 hf
    refine ⟨⟨.COMMA, .char ',', p2.1, p2.2⟩, advPos p2 c, ?_, rfl, rfl⟩
    rw [List.nil_append]
    unfold JSONLexer.scanTok
    rw [if_neg h1, if_neg h2, if_neg h3, if_neg h4, if_neg h5, if_pos h6]
  · obtain ⟨pre, hpre, hreb⟩ := tokenize_string_exchange c cs pos t rest q h
    refine ⟨pre, hpre, ?_⟩
    intro r2 p2 hf
    obtain ⟨t2, q2, hq2, hty, hval⟩ := hreb r2 p2
    refine ⟨t2, q2, ?_, hty, hval⟩
    unfold JSONLexer.scanTok
    rw [if_neg h1, if_neg h2, if_neg h3, if_neg h4, if_neg h5, if_neg h6, if_pos h7]
    exact hq2
  · obtain ⟨pre, hne, hpre, hreb⟩ := tokenize_number_exchange (c :: cs) pos t rest q h
    cases pre with
    | nil => exact absurd rfl hne
    | cons p0 pre2 =>
      have hc0 : c = p0 ∧ cs = pre2 ++ rest := by
        rw [List.cons_append] at hpre
        exact ⟨List.head_eq_of_cons_eq hpre, List.tail_eq_of_cons_eq hpre⟩
      obtain ⟨hc0a, hc0b⟩ := hc0
      subst hc0a
      refine ⟨pre2, hc0b, ?_⟩
      intro r2 p2 hf
      obtain ⟨t2, q2, hq2, hty, hval⟩ := hreb r2 p2 hf
      refine ⟨t2, q2, ?_, hty, hval⟩
      unfold JSONLexer.scanTok
      rw [if_neg h1, if_neg h2, if_neg h3, if_neg h4, if_neg h5, if_neg h6, if_neg h7,
        if_pos h8]
      exact hq2
  · obtain ⟨pre, hne, hpre, hreb⟩ := tokenize_keyword_exchange (c :: cs) pos t rest q h
    cases pre with
    | nil => exact absurd rfl hne
    | cons p0 pre2 =>
      have hc0 : c = p0 ∧ cs = pre2 ++ rest := by
        rw [List.cons_append] at hpre
        exact ⟨List.head_eq_of_cons_eq hpre, List.tail_eq_of_cons_eq hpre⟩
      obtain ⟨hc0a, hc0b⟩ := hc0
      subst hc0a
      refine ⟨pre2, hc0b, ?_⟩
      intro r2 p2 hf
      obtain ⟨t2, q2, hq2, hty, hval⟩ := hreb r2 p2 hf
      refine ⟨t2, q2, ?_, hty, hval⟩
      unfold JSONLexer.scanTok
      rw [if_neg h1, if_neg h2, if_neg h3, if_neg h4, if_neg h5, if_neg h6, if_neg h7,
        if_neg h8, if_pos h9]
      exact hq2

/-- The tokenize loop consumes a whitespace run, one character per fuel
unit, advancing the position. -/
theorem tokLoop_ws : ∀ (g s : List Char) (pos : Pos) (fuel : Nat),
    g.all isWS = true →
    JSONLexer.tokLoop (fuel + g.length) (g ++ s) pos =
      JSONLexer.tokLoop fuel s (advPosList pos g) := by
  intro g
  induction g with
  | nil => intro s pos fuel _; rfl
  | cons c g2 ih =>
    intro s pos fuel hg
    simp only [List.all_cons, Bool.and_eq_true] at hg
    rw [show fuel + (c :: g2).length = (fuel + g2.length) + 1 by
      rw [List.length_cons]; omega]
    rw [List.cons_append, JSONLexer.tokLoop, if_pos hg.1]
    exact ih s (advPos pos c) fuel hg.2

/-- A whitespace character never scans to a token (it falls through every
dispatch branch into the "Unexpected character" error). -/
theorem scanTok_ws (c : Char) (cs : List Char) (pos : Pos) (h : isWS c = true) :
    ∀ r, JSONLexer.scanTok c cs pos ≠ .ok r := by
  simp only [isWS, Bool.or_eq_true, decide_eq_true_eq] at h
  rcases h with ((rfl | rfl) | rfl) | rfl <;> (intro r hr; cases hr)

/-- Soundness of a `LexesTo` decomposition: the assembled text tokenizes to
exactly the decomposition's tokens followed by the EOF sentinel. -/
theorem lexesTo_tokLoop : ∀ (pairs : List (List Char × List Char)) (wend : List Char)
    (pos : Pos) (ts : List Token), LexesTo pairs wend pos ts →
    ∀ fuel, (assemble pairs wend).length < fuel →
    ∃ l c, JSONLexer.tokLoop fuel (assemble pairs wend) pos =
      .ok (ts ++ [⟨.EOF, .none, l, c⟩]) := by
  intro pairs wend pos ts hlex
  induction hlex with
  | nil wendx posx hw =>
    intro fuel hfuel
    have hlen : (assemble [] wendx).length = wendx.length := rfl
    obtain ⟨k, hk⟩ : ∃ k, fuel = k + wendx.length := ⟨fuel - wendx.length, by omega⟩
    subst hk
    have hks : 1 ≤ k := by omega
    obtain ⟨k2, rfl⟩ : ∃ k2, k = k2 + 1 := ⟨k - 1, by omega⟩
    refine ⟨(advPosList posx wendx).1, (advPosList posx wendx).2, ?_⟩
    rw [show assemble [] wendx = wendx ++ [] by simp [assemble]]
    rw [tokLoop_ws wendx [] posx (k2 + 1) hw]
    rfl
  | cons g c l rest wendx posx t pos3 tsx hg hscan hrest ih =>
    intro fuel hfuel
    have hasm : assemble ((g, c :: l) :: rest) wendx =
        g ++ ((c :: l) ++ assemble rest wendx) := by simp [assemble]
    rw [hasm] at hfuel ⊢
    have hlen2 : (g ++ ((c :: l) ++ assemble rest wendx)).length =
        g.length + (l.length + 1) + (assemble rest wendx).length := by
      simp [List.length_append, List.length_cons]
      omega
    obtain ⟨k, hk⟩ : ∃ k, fuel = k + g.length := ⟨fuel - g.length, by omega⟩
    subst hk
    rw [tokLoop_ws g _ posx k hg]
    obtain ⟨k2, rfl⟩ : ∃ k2, k = k2 + 1 := ⟨k - 1, by omega⟩
    rw [List.cons_append, JSONLexer.tokLoop]
    have hnws : ¬ isWS c = true := by
      intro hw
      exact scanTok_ws c _ _ hw _ hscan
    rw [if_neg hnws, hscan]
    obtain ⟨l2, c2, hih⟩ := ih k2 (by omega)
    refine ⟨l2, c2, ?_⟩
    show (match JSONLexer.tokLoop k2 (assemble rest wendx) pos3 with
      | Except.error e => Except.error e
      | Except.ok ts3 => Except.ok (t :: ts3)) = _
    rw [hih]
    rfl

/-- Every lexeme of a `LexesTo` decomposition is nonempty. -/
theorem lexesTo_ne_nil : ∀ (pairs : List (List Char × List Char)) (wend : List Char)
    (pos : Pos) (ts : List Token), LexesTo pairs wend pos ts →
    ∀ p ∈ pairs, p.2 ≠ [] := by
  intro pairs wend pos ts h
  induction h with
  | nil => intro p hp; cases hp
  | cons g c l rest wendx posx t pos3 tsx hg hscan hrest ih =>
    intro p hp
    rcases List.mem_cons.mp hp with rfl | hp2
    · simp
    · exact ih p hp2

/-- The head of the assembled text after a whitespace edit is compatible
with the original head: equal when the leading gap stays empty, whitespace
otherwise. -/
theorem follows_assemble : ∀ (rest rest2 : List (List Char × List Char))
    (wend wend2 : List Char),
    List.Forall₂ gapRel rest rest2 → (∀ p ∈ rest, p.2 ≠ []) →
    wend2.all isWS = true → (wend2 = [] → wend = []) →
    follows (assemble rest wend) (assemble rest2 wend2) := by
  intro rest rest2 wend wend2 hF hne hw2 hwe
  cases hF with
  | nil =>
    cases wend2 with
    | nil =>
      left
      rw [hwe rfl]
    | cons c t =>
      right
      refine ⟨c, rfl, ?_⟩
      simp only [List.all_cons, Bool.and_eq_true] at hw2
      exact hw2.1
  | @cons p p2 rest' rest2' hrel hF2 =>
    obtain ⟨hl, hg2, hge⟩ := hrel
    cases hp2 : p2.1 with
    | cons c t =>
      right
      refine ⟨c, ?_, ?_⟩
      · rw [show assemble (p2 :: rest2') wend2 =
          p2.1 ++ (p2.2 ++ assemble rest2' wend2) by simp [assemble], hp2]
        rfl
      · rw [hp2] at hg2
        simp only [List.all_cons, Bool.and_eq_true] at hg2
        exact hg2.1
    | nil =>
      left
      have hp1 : p.1 = [] := hge hp2
      have hne1 : p.2 ≠ [] := hne p (List.mem_cons_self p rest')
      rw [show assemble (p2 :: rest2') wend2 =
          p2.1 ++ (p2.2 ++ assemble rest2' wend2) by simp [assemble],
        show assemble (p :: rest') wend = p.1 ++ (p.2 ++ assemble rest' wend) by
          simp [assemble],
        hp2, hp1, hl, List.nil_append, List.nil_append]
      cases hp2v : p.2 with
      | nil => exact absurd hp2v hne1
      | cons x xs => rfl

/-- Transfer of a `LexesTo` decomposition across a whitespace edit: the
edited text decomposes into the same lexemes, scanned to tokens of the same
types and values. -/
theorem lexesTo_transfer : ∀ (pairs : List (List Char × List Char)) (wend : List Char)
    (pos : Pos) (ts : List Token), LexesTo pairs wend pos ts →
    ∀ (pairs2 : List (List Char × List Char)) (wend2 : List Char),
    List.Forall₂ gapRel pairs pairs2 → wend2.all isWS = true →
    (wend2 = [] → wend = []) →
    ∀ pos2, ∃ ts2, LexesTo pairs2 wend2 pos2 ts2 ∧
      ts2.map tokShape = ts.map tokShape := by
  intro pairs wend pos ts hlex
  induction hlex with
  | nil wendx posx hw =>
    intro pairs2 wend2 hF hw2 hwe pos2
    cases hF
    exact ⟨[], LexesTo.nil wend2 pos2 hw2, rfl⟩
  | cons g c l rest wendx posx t pos3 tsx hg hscan hrest ih =>
    intro pairs2 wend2 hF hw2 hwe pos2
    cases hF with
    | @cons _ p2 _ rest2 hrel hF2 =>
      obtain ⟨g2, l2⟩ := p2
      obtain ⟨hl, hg2, hge⟩ := hrel
      dsimp only at hl hg2 hge
      subst hl
      obtain ⟨pre, hpre, hreb⟩ := scanTok_exchange c _ _ _ _ _ hscan
      have hpre2 : l = pre := by
        have := hpre
        exact List.append_cancel_right this
      subst hpre2
      have hfol : follows (assemble rest wendx) (assemble rest2 wend2) :=
        follows_assemble rest rest2 wendx wend2 hF2
          (lexesTo_ne_nil rest wendx pos3 tsx hrest) hw2 hwe
      obtain ⟨t2, q2, hsc2, hty, hval⟩ :=
        hreb (assemble rest2 wend2) (advPosList pos2 g2) hfol
      obtain ⟨ts2, hlex2, hshape⟩ := ih rest2 wend2 hF2 hw2 hwe q2
      refine ⟨t2 :: ts2, ?_, ?_⟩
      · exact LexesTo.cons g2 c l rest2 wend2 pos2 t2 q2 ts2 hg2 hsc2 hlex2
      · simp only [List.map_cons, hshape, tokShape, hty, hval]

/-- Shape-equal token lists have equal length. -/
theorem shapeEq_length (ts ts2 : List Token) (h : shapeEq ts ts2) :
    ts.length = ts2.length := by
  have h2 := congrArg List.length h
  simpa using h2

/-- `current_token` on shape-equal lists: both out of tokens, or tokens of
equal type and value. -/
theorem current_rel (ts ts2 : List Token) (pos : Nat) (h : shapeEq ts ts2) :
    (JSONParser.current_token ts pos = none ∧ JSONParser.current_token ts2 pos = none) ∨
    (∃ t t2, JSONParser.current_token ts pos = some t ∧
      JSONParser.current_token ts2 pos = some t2 ∧ t.type = t2.type ∧ t.value = t2.value) := by
  have hlen := shapeEq_length ts ts2 h
  have hm : Option.map tokShape (JSONParser.current_token ts pos) =
      Option.map tokShape (JSONParser.current_token ts2 pos) := by
    unfold JSONParser.current_token
    calc Option.map tokShape (ts.get? (min pos (ts.length - 1)))
        = (ts.map tokShape).get? (min pos (ts.length - 1)) := (List.get?_map _ _ _).symm
      _ = (ts2.map tokShape).get? (min pos (ts.length - 1)) := by rw [h]
      _ = Option.map tokShape (ts2.get? (min pos (ts.length - 1))) := List.get?_map _ _ _
      _ = Option.map tokShape (ts2.get? (min pos (ts2.length - 1))) := by rw [hlen]
  cases hc1 : JSONParser.current_token ts pos with
  | none =>
    cases hc2 : JSONParser.current_token ts2 pos with
    | none => exact Or.inl ⟨rfl, rfl⟩
    | some t2 =>
      rw [hc1, hc2] at hm
      cases hm
  | some t =>
    cases hc2 : JSONParser.current_token ts2 pos with
    | none =>
      rw [hc1, hc2] at hm
      cases hm
    | some t2 =>
      rw [hc1, hc2] at hm
      have hs : tokShape t = tokShape t2 := Option.some.inj hm
      exact Or.inr ⟨t, t2, rfl, rfl, congrArg Prod.fst hs, congrArg Prod.snd hs⟩

/-- `advance` depends only on the cursor and the list length. -/
theorem advanceP_congr (ts ts2 : List Token) (pos : Nat) (h : shapeEq ts ts2) :
    JSONParser.advanceP ts pos = JSONParser.advanceP ts2 pos := by
  unfold JSONParser.advanceP
  rw [shapeEq_length ts ts2 h]

/-- `expect` on shape-equal lists: both fail, or both return tokens of equal
type and value at the same new cursor. -/
theorem expect_rel (ts ts2 : List Token) (pos : Nat) (tt : TokenType)
    (h : shapeEq ts ts2) :
    (∃ e e2, JSONParser.expect ts pos tt = .error e ∧
      JSONParser.expect ts2 pos tt = .error e2) ∨
    (∃ t t2 p, JSONParser.expect ts pos tt = .ok (t, p) ∧
      JSONParser.expect ts2 pos tt = .ok (t2, p) ∧ t.type = t2.type ∧ t.value = t2.value) := by
  unfold JSONParser.expect
  rcases current_rel ts ts2 pos h with ⟨hc1, hc2⟩ | ⟨t, t2, hc1, hc2, hty, hval⟩
  · rw [hc1, hc2]
    exact Or.inl ⟨_, _, rfl, rfl⟩
  · rw [hc1, hc2]
    dsimp only
    by_cases htt : t.type = tt
    · rw [if_pos htt, if_pos (hty.symm.trans htt)]
      refine Or.inr ⟨t, t2, JSONParser.advanceP ts pos, rfl, ?_, hty, hval⟩
      rw [advanceP_congr ts ts2 pos h]
    · rw [if_neg htt, if_neg (fun hh => htt (hty.trans hh))]
      exact Or.inl ⟨_, _, rfl, rfl⟩

/-- On shape-equal token lists every parser production computes the same
success value and final cursor (error payloads may differ, carrying the
differing positions). -/
theorem parse_transfer : ∀ (fuel : Nat) (ts ts2 : List Token), shapeEq ts ts2 →
    (∀ pos, okPart (JSONParser.parse_value fuel ts pos) =
      okPart (JSONParser.parse_value fuel ts2 pos)) ∧
    (∀ pos, okPart (JSONParser.parse_object fuel ts pos) =
      okPart (JSONParser.parse_object fuel ts2 pos)) ∧
    (∀ pos acc, okPart (JSONParser.obj_loop fuel ts pos acc) =
      okPart (JSONParser.obj_loop fuel ts2 pos acc)) ∧
    (∀ pos, okPart (JSONParser.parse_array fuel ts pos) =
      okPart (JSONParser.parse_array fuel ts2 pos)) ∧
    (∀ pos acc, okPart (JSONParser.arr_loop fuel ts pos acc) =
      okPart (JSONParser.arr_loop fuel ts2 pos acc)) := by
  intro fuel
  induction fuel with
  | zero =>
    intro ts ts2 h
    exact ⟨fun _ => rfl, fun _ => rfl, fun _ _ => rfl, fun _ => rfl, fun _ _ => rfl⟩
  | succ f ih =>
    intro ts ts2 h
    obtain ⟨ihv, iho, ihol, iha, ihal⟩ := ih ts ts2 h
    have harr : ∀ pos acc, okPart (JSONParser.arr_loop (f + 1) ts pos acc) =
        okPart (JSONParser.arr_loop (f + 1) ts2 pos acc) := by
      intro pos acc
      have hv := ihv pos
      cases hpv : JSONParser.parse_value f ts pos with
      | error e =>
        cases hpv2 : JSONParser.parse_value f ts2 pos with
        | error e2 => simp only [JSONParser.arr_loop, hpv, hpv2]; rfl
        | ok rv2 =>
          rw [hpv, hpv2] at hv
          simp [okPart] at hv
      | ok rv =>
        cases hpv2 : JSONParser.parse_value f ts2 pos with
        | error e2 =>
          rw [hpv, hpv2] at hv
          simp [okPart] at hv
        | ok rv2 =>
          have hrv : rv = rv2 := by
            rw [hpv, hpv2] at hv
            simpa [okPart] using hv
          subst hrv
          simp only [JSONParser.arr_loop, hpv, hpv2]
          rcases current_rel ts ts2 rv.2 h with ⟨hcc1, hcc2⟩ | ⟨u, u2, hcc1, hcc2, huty, huval⟩
          · simp only [hcc1, hcc2]
          · simp only [hcc1, hcc2, ← huty]
            by_cases hcm : u.type = .COMMA
            · rw [if_pos hcm, if_pos hcm]
              rw [← advanceP_congr ts ts2 rv.2 h]
              rcases current_rel ts ts2 (JSONParser.advanceP ts rv.2) h with
                ⟨hd1, hd2⟩ | ⟨w, w2, hd1, hd2, hwty, hwval⟩
              · simp only [hd1, hd2]
              · simp only [hd1, hd2, ← hwty]
                by_cases hrb : w.type = .RBRACKET
                · rw [if_pos hrb, if_pos hrb]; rfl
                · rw [if_neg hrb, if_neg hrb]
                  exact ihal _ _
            · rw [if_neg hcm, if_neg hcm]
              rcases expect_rel ts ts2 rv.2 .RBRACKET h with
                ⟨e, e2, he1, he2⟩ | ⟨w, w2, p, he1, he2, _, _⟩
              · simp only [he1, he2]; rfl
              · simp only [he1, he2]
    have hobj : ∀ pos acc, okPart (JSONParser.obj_loop (f + 1) ts pos acc) =
        okPart (JSONParser.obj_loop (f + 1) ts2 pos acc) := by
      intro pos acc
      rcases expect_rel ts ts2 pos .STRING h with
        ⟨e, e2, he1, he2⟩ | ⟨kt, kt2, p1, he1, he2, hkty, hkval⟩
      · simp only [JSONParser.obj_loop, he1, he2]; rfl
      · simp only [JSONParser.obj_loop, he1, he2]
        rcases expect_rel ts ts2 p1 .COLON h with
          ⟨e, e2, hc1, hc2⟩ | ⟨ct, ct2, p2, hc1, hc2, _, _⟩
        · simp only [hc1, hc2]; rfl
        · simp only [hc1, hc2]
          have hv := ihv p2
          cases hpv : JSONParser.parse_value f ts p2 with
          | error e =>
            cases hpv2 : JSONParser.parse_value f ts2 p2 with
            | error e2 => simp only [hpv, hpv2]; rfl
            | ok rv2 =>
              rw [hpv, hpv2] at hv
              simp [okPart] at hv
          | ok rv =>
            cases hpv2 : JSONParser.parse_value f ts2 p2 with
            | error e2 =>
              rw [hpv, hpv2] at hv
              simp [okPart] at hv
            | ok rv2 =>
              have hrv : rv = rv2 := by
                rw [hpv, hpv2] at hv
                simpa [okPart] using hv
              subst hrv
              simp only [hpv, hpv2, ← hkval]
              rcases current_rel ts ts2 rv.2 h with
                ⟨hcc1, hcc2⟩ | ⟨u, u2, hcc1, hcc2, huty, huval⟩
              · simp only [hcc1, hcc2]
              · simp only [hcc1, hcc2, ← huty]
                by_cases hcm : u.type = .COMMA
                · rw [if_pos hcm, if_pos hcm]
                  rw [← advanceP_congr ts ts2 rv.2 h]
                  rcases current_rel ts ts2 (JSONParser.advanceP ts rv.2) h with
                    ⟨hd1, hd2⟩ | ⟨w, w2, hd1, hd2, hwty, hwval⟩
                  · simp only [hd1, hd2]
                  · simp only [hd1, hd2, ← hwty]
                    by_cases hrb : w.type = .RBRACE
                    · rw [if_pos hrb, if_pos hrb]; rfl
                    · rw [if_neg hrb, if_neg hrb]
                      exact ihol _ _
                · rw [if_neg hcm, if_neg hcm]
                  rcases expect_rel ts ts2 rv.2 .RBRACE h with
                    ⟨e, e2, he1, he2⟩ | ⟨w, w2, p, he1, he2, _, _⟩
                  · simp only [he1, he2]; rfl
                  · simp only [he1, he2]
    refine ⟨?_, ?_, hobj, ?_, harr⟩
    · intro pos
      rcases current_rel ts ts2 pos h with ⟨hc1, hc2⟩ | ⟨t, t2, hc1, hc2, hty, hval⟩
      · simp only [JSONParser.parse_value, hc1, hc2]
      · simp only [JSONParser.parse_value, hc1, hc2, ← hty]
        cases htt : t.type with
        | STRING => simp only [okPart, hval, advanceP_congr ts ts2 pos h]
        | NUMBER => simp only [okPart, hval, advanceP_congr ts ts2 pos h]
        | TRUE => simp only [okPart, advanceP_congr ts ts2 pos h]
        | FALSE => simp only [okPart, advanceP_congr ts ts2 pos h]
        | NULL => simp only [okPart, advanceP_congr ts ts2 pos h]
        | LBRACE => exact iho pos
        | LBRACKET => exact iha pos
        | RBRACE => rfl
        | RBRACKET => rfl
        | COLON => rfl
        | COMMA => rfl
        | EOF => rfl
    · intro pos
      rcases expect_rel ts ts2 pos .LBRACE h with
        ⟨e, e2, he1, he2⟩ | ⟨t, t2, p, he1, he2, hty, hval⟩
      · simp only [JSONParser.parse_object, he1, he2]; rfl
      · simp only [JSONParser.parse_object, he1, he2]
        rcases current_rel ts ts2 p h with ⟨hc1, hc2⟩ | ⟨u, u2, hc1, hc2, huty, huval⟩
        · simp only [hc1, hc2]
        · simp only [hc1, hc2, ← huty]
          by_cases hrb : u.type = .RBRACE
          · rw [if_pos hrb, if_pos hrb, advanceP_congr ts ts2 p h]
          · rw [if_neg hrb, if_neg hrb]
            exact ihol _ _
    · intro pos
      rcases expect_rel ts ts2 pos .LBRACKET h with
        ⟨e, e2, he1, he2⟩ | ⟨t, t2, p, he1, he2, hty, hval⟩
      · simp only [JSONParser.parse_array, he1, he2]; rfl
      · simp only [JSONParser.parse_array, he1, he2]
        rcases current_rel ts ts2 p h with ⟨hc1, hc2⟩ | ⟨u, u2, hc1, hc2, huty, huval⟩
        · simp only [hc1, hc2]
        · simp only [hc1, hc2, ← huty]
          by_cases hrb : u.type = .RBRACKET
          · rw [if_pos hrb, if_pos hrb, advanceP_congr ts ts2 p h]
          · rw [if_neg hrb, if_neg hrb]
            exact ihal _ _

/-- `parse` on shape-equal token lists computes the same success value. -/
theorem parse_transfer_top (ts ts2 : List Token) (h : shapeEq ts ts2) :
    okPart (JSONParser.parse ts) = okPart (JSONParser.parse ts2) := by
  have hfuel : JSONParser.parseFuel ts = JSONParser.parseFuel ts2 := by
    unfold JSONParser.parseFuel
    rw [shapeEq_length ts ts2 h]
  have hv := (parse_transfer (JSONParser.parseFuel ts) ts ts2 h).1 0
  unfold JSONParser.parse
  rw [← hfuel]
  cases hpv : JSONParser.parse_value (JSONParser.parseFuel ts) ts 0 with
  | error e =>
    cases hpv2 : JSONParser.parse_value (JSONParser.parseFuel ts) ts2 0 with
    | error e2 => simp only [hpv, hpv2]; rfl
    | ok rv2 =>
      rw [hpv, hpv2] at hv
      simp [okPart] at hv
  | ok rv =>
    cases hpv2 : JSONParser.parse_value (JSONParser.parseFuel ts) ts2 0 with
    | error e2 =>
      rw [hpv, hpv2] at hv
      simp [okPart] at hv
    | ok rv2 =>
      have hrv : rv = rv2 := by
        rw [hpv, hpv2] at hv
        simpa [okPart] using hv
      subst hrv
      simp only [hpv, hpv2]
      rcases current_rel ts ts2 rv.2 h with ⟨hc1, hc2⟩ | ⟨u, u2, hc1, hc2, huty, huval⟩
      · simp only [hc1, hc2]
      · simp only [hc1, hc2, ← huty]
        by_cases heof : u.type = .EOF
        · rw [if_pos heof, if_pos heof]
        · rw [if_neg heof, if_neg heof]; rfl

/-- `parse_json` through an explicit tokenization result. -/
theorem parse_json_tokenized (s : List Char) (tl : List Token)
    (htk : JSONLexer.tokenize s = .ok tl) :
    parse_json (String.mk s) = JSONParser.parse tl := by
  unfold parse_json
  rw [show (String.mk s).toList = s from rfl, htk]

/-- Claim C3: inserting whitespace between tokens preserves a successful
parse.  `LexesTo` decomposes the original document into whitespace gaps and
token lexemes through the lexer's own `scanTok`; `gapRel` lets each gap be
replaced by an arbitrary run of whitespace characters, never erasing a gap
that separated two lexemes, and likewise for the final gap.  On the edited
document `parse_json` returns the same value as on the original. -/
theorem C3_whitespace_insertion
    (pairs pairs2 : List (List Char × List Char)) (wend wend2 : List Char)
    (ts : List Token) (v : JValue)
    (hlex : LexesTo pairs wend (1, 1) ts)
    (hrel : List.Forall₂ gapRel pairs pairs2)
    (hw2 : wend2.all isWS = true)
    (hwe : wend2 = [] → wend = [])
    (hok : parse_json (String.mk (assemble pairs wend)) = .ok v) :
    parse_json (String.mk (assemble pairs2 wend2)) = .ok v := by
  obtain ⟨l1, c1, ht1⟩ := lexesTo_tokLoop pairs wend (1, 1) ts hlex
    ((assemble pairs wend).length + 1) (by omega)
  obtain ⟨ts2, hlex2, hshape⟩ :=
    lexesTo_transfer pairs wend (1, 1) ts hlex pairs2 wend2 hrel hw2 hwe (1, 1)
  obtain ⟨l2, c2, ht2⟩ := lexesTo_tokLoop pairs2 wend2 (1, 1) ts2 hlex2
    ((assemble pairs2 wend2).length + 1) (by omega)
  rw [parse_json_tokenized (assemble pairs wend) _ ht1] at hok
  rw [parse_json_tokenized (assemble pairs2 wend2) _ ht2]
  have hsh : shapeEq (ts ++ [⟨.EOF, .none, l1, c1⟩])
      (ts2 ++ [⟨.EOF, .none, l2, c2⟩]) := by
    simp [shapeEq, hshape, tokShape]
  have htr := parse_transfer_top _ _ hsh
  rw [hok] at htr
  cases hp2 : JSONParser.parse (ts2 ++ [⟨.EOF, .none, l2, c2⟩]) with
  | error e => rw [hp2] at htr; exact absurd htr (by simp [okPart])
  | ok w =>
    rw [hp2] at htr
    have hvw : v = w := by simpa [okPart] using htr
    subst hvw
    rfl

/-- Witness for C3: the document `[1]`, with a space inserted between `[`
and `1` and another appended at the end, still parses to the singleton array
containing 1. -/
theorem C3_whitespace_insertion_witness :
    parse_json (String.mk (assemble [([], ['[']), ([' '], ['1']), ([], [']'])] [' '])) =
      .ok (.arr [.int 1]) :=
  C3_whitespace_insertion
    [([], ['[']), ([], ['1']), ([], [']'])]
    [([], ['[']), ([' '], ['1']), ([], [']'])]
    [] [' ']
    [⟨.LBRACKET, .char '[', 1, 1⟩, ⟨.NUMBER, .int 1, 1, 2⟩,
      ⟨.RBRACKET, .char ']', 1, 3⟩]
    (.arr [.int 1])
    (LexesTo.cons [] '[' [] [([], ['1']), ([], [']'])] [] (1, 1)
      ⟨.LBRACKET, .char '[', 1, 1⟩ (1, 2) _ (by decide) (by rfl)
      (LexesTo.cons [] '1' [] [([], [']'])] [] (1, 2)
        ⟨.NUMBER, .int 1, 1, 2⟩ (1, 3) _ (by decide) (by rfl)
        (LexesTo.cons [] ']' [] [] [] (1, 3)
          ⟨.RBRACKET, .char ']', 1, 3⟩ (1, 4) _ (by decide) (by rfl)
          (LexesTo.nil [] (1, 4) (by decide)))))
    (.cons ⟨rfl, rfl, fun _ => rfl⟩
      (.cons ⟨rfl, by decide, fun _ => rfl⟩
        (.cons ⟨rfl, rfl, fun _ => rfl⟩ .nil)))
    (by decide) (fun _ => rfl) (by rfl)

/-- Claim C1: `"true"` and `"null"` parse to the corresponding scalar values,
but `"42"` does not: with the number at the very end of the input,
`tokenize_number` evaluates `self.peek() in 'eE'` with `peek()` returning
`None`, which raises an uncaught `TypeError` instead of succeeding.  The same
document followed by whitespace parses to the integer 42. -/
theorem C1_scalar_roots :
    parse_json "true" = .ok (.bool true) ∧
    parse_json "null" = .ok .null ∧
    parse_json "42" = .error .typeErr ∧
    parse_json "42 " = .ok (.int 42) :=
  by exact ⟨by rfl, by rfl, by rfl, by rfl⟩

/-- Claim C2: a `\uXXXX` escape with four hexadecimal digits is decoded to
the corresponding code point (and exactly four characters are consumed), but
when fewer than four characters remain after `\u` the failure is an uncaught
`TypeError` (`hex_digits += None`), not a located lexer error. -/
theorem C2_unicode_escape :
    parse_json "\"\\u0041\"" = .ok (.str [65]) ∧
    parse_json "\"\\u0041x\"" = .ok (.str [65, 120]) ∧
    parse_json "\"\\u00" = .error .typeErr :=
  by exact ⟨by rfl, by rfl, by rfl⟩

/-- Claim C4: `[1,2,]` and `{"a":1,}` both fail with the dedicated
trailing-comma error, located at the closing bracket/brace observed right
after the comma, not with a generic expect-mismatch error. -/
theorem C4_trailing_comma :
    parse_json "[1,2,]" = .error (.parseErr "Trailing comma in array" 1 6) ∧
    parse_json "\x7b\"a\":1,\x7d" = .error (.parseErr "Trailing comma in object" 1 8) :=
  by exact ⟨by rfl, by rfl⟩

/-- Claim C6, counterexample: the described character sequence has ten
characters, not eleven. -/
theorem C6_counterexample : ¬ (c6input.length = 11) := by decide

/-- Claim C6 (amended to the actual character count): parsing the
ten-character input `'{'`, newline, two spaces, `"a"`, `':'`, space, `'}'`
fails with a parse error at line 2, column 8 — the position of the `}` token
found where a value was expected. -/
theorem C6_position_accuracy :
    c6input.length = 10 ∧
    parse_json (String.mk c6input) = .error (.parseErr "Unexpected token: RBRACE" 2 8) :=
  by exact ⟨by rfl, by rfl⟩

/-- Claim C7: on `01 `, the lexer scans `0` as a complete Number token with
value 0 and `1` as a separate Number token, and parsing fails with the
"Expected end of input" error at the second token; but on the exact top-level
document `01` the second number ends at end of input, so the lexer raises an
uncaught `TypeError` (`None in 'eE'`) instead of that parse error. -/
theorem C7_leading_zero :
    JSONLexer.tokenize "01 ".toList =
      .ok [⟨.NUMBER, .int 0, 1, 1⟩, ⟨.NUMBER, .int 1, 1, 2⟩, ⟨.EOF, .none, 1, 4⟩] ∧
    parse_json "01 " = .error (.parseErr "Expected end of input" 1 2) ∧
    parse_json "01" = .error .typeErr :=
  by exact ⟨by rfl, by rfl, by rfl⟩

/-- Claim C9: the `\u` escape decoder hands its four raw characters to
`int(_, 16)`, which tolerates surrounding whitespace and a sign, so `\u+041`
and `\u 41 ` (space, `4`, `1`, space) both decode to U+0041. -/
theorem C9_lenient_hex :
    parse_json "\"\\u+041\"" = .ok (.str [65]) ∧
    parse_json "\"\\u 41 \"" = .ok (.str [65]) ∧
    pyIntHex "+041" = some 65 ∧
    pyIntHex " 41 " = some 65 :=
  by exact ⟨by rfl, by rfl, by rfl, by rfl⟩

set_option maxHeartbeats 2000000 in
/-- Claim C5: `{"a":1,"a":2}` parses to an object with the single key `"a"`
(code point 97) mapped to 2; and in general the object-construction step
`obj[key] = value` overwrites the value of an existing key while keeping the
key's first-seen position (the key sequence is unchanged), and appends a
fresh key at the end. -/
theorem C5_duplicate_keys :
    parse_json "\x7b\"a\":1,\"a\":2\x7d" = .ok (.obj [([97], .int 2)]) ∧
    (∀ (d : List (Str × JValue)) (k : Str) (v : JValue), k ∈ d.map Prod.fst →
      (dictInsert d k v).map Prod.fst = d.map Prod.fst ∧
        lookupD (dictInsert d k v) k = some v) ∧
    (∀ (d : List (Str × JValue)) (k : Str) (v : JValue), k ∉ d.map Prod.fst →
      dictInsert d k v = d ++ [(k, v)]) := by
  refine ⟨?_, ?_, ?_⟩
  · rfl
  · intro d k v hk
    induction d with
    | nil => cases hk
    | cons p rest ih =>
      obtain ⟨k0, v0⟩ := p
      by_cases h : k0 = k
      · subst h
        simp [dictInsert, lookupD]
      · have hk2 : k ∈ rest.map Prod.fst := by
          rcases List.mem_cons.mp hk with hh | hh
          · exact absurd hh.symm h
          · exact hh
        obtain ⟨ih1, ih2⟩ := ih hk2
        constructor
        · simp [dictInsert, h, ih1]
        · simp [dictInsert, lookupD, h, ih2]
  · intro d k v hk
    induction d with
    | nil => rfl
    | cons p rest ih =>
      obtain ⟨k0, v0⟩ := p
      have h : ¬ k0 = k := by
        intro hh
        exact hk (by simp [hh])
      have hk2 : k ∉ rest.map Prod.fst := by
        intro hh
        exact hk (by simp [hh])
      simp [dictInsert, h, ih hk2]

/-- Witness for C5 at a concrete object: overwriting the key `"a"` keeps the
key sequence and stores the new value. -/
theorem C5_duplicate_keys_witness :
    (dictInsert [([97], JValue.int 1)] [97] (.int 2)).map Prod.fst =
      [([97], JValue.int 1)].map Prod.fst ∧
    lookupD (dictInsert [([97], JValue.int 1)] [97] (.int 2)) [97] = some (.int 2) :=
  C5_duplicate_keys.2.1 [([97], .int 1)] [97] (.int 2) (by decide)

/-- Claim C8: whenever `tokenize` returns, its token list is some EOF-free
prefix followed by exactly one EOF token; `current_token` and `peek` always
hit an in-bounds index on any nonempty token list; `advance` at or beyond the
final token leaves the cursor unchanged; and the truncated document `{"a":`
fails with a located parse error at the EOF position, not an index error. -/
theorem C8_cursor_safety :
    (∀ (s : List Char) (ts : List Token), JSONLexer.tokenize s = .ok ts →
      ∃ ts0 l c, ts = ts0 ++ [⟨.EOF, .none, l, c⟩] ∧ ∀ t ∈ ts0, t.type ≠ .EOF) ∧
    (∀ (ts : List Token) (pos : Nat), ts ≠ [] →
      (JSONParser.current_token ts pos).isSome = true) ∧
    (∀ (ts : List Token) (pos offset : Nat), ts ≠ [] →
      (JSONParser.peekTok ts pos offset).isSome = true) ∧
    (∀ (ts : List Token) (pos : Nat), ts.length - 1 ≤ pos →
      JSONParser.advanceP ts pos = pos) ∧
    parse_json "\x7b\"a\":" = .error (.parseErr "Unexpected token: EOF" 1 6) := by
  refine ⟨?_, ?_, ?_, ?_, by rfl⟩
  · intro s ts h
    exact tokLoop_eof _ _ _ _ h
  · intro ts pos h
    exact current_token_isSome ts pos h
  · intro ts pos offset h
    exact peekTok_isSome ts pos offset h
  · intro ts pos h
    unfold JSONParser.advanceP
    rw [if_neg (by omega)]

/-- Witness for C8 at concrete inputs: the empty document tokenizes to the
lone EOF sentinel; cursor reads on a singleton list are in bounds at any
position; `advance` at the final token is a no-op. -/
theorem C8_cursor_safety_witness :
    (∃ ts0 l c, ([⟨.EOF, .none, 1, 1⟩] : List Token) = ts0 ++ [⟨.EOF, .none, l, c⟩] ∧
      ∀ t ∈ ts0, t.type ≠ .EOF) ∧
    (JSONParser.current_token [⟨.EOF, .none, 1, 1⟩] 5).isSome = true ∧
    (JSONParser.peekTok [⟨.EOF, .none, 1, 1⟩] 5 2).isSome = true ∧
    JSONParser.advanceP [⟨.EOF, .none, 1, 1⟩] 0 = 0 :=
  ⟨C8_cursor_safety.1 [] [⟨.EOF, .none, 1, 1⟩] (by rfl),
    C8_cursor_safety.2.1 [⟨.EOF, .none, 1, 1⟩] 5 (by decide),
    C8_cursor_safety.2.2.1 [⟨.EOF, .none, 1, 1⟩] 5 2 (by decide),
    C8_cursor_safety.2.2.2.1 [⟨.EOF, .none, 1, 1⟩] 0 (by decide)⟩

/-- Claim C10: inside a string literal every raw character other than `"` and
`\` is copied verbatim (as its code point) into the decoded value — in
particular raw control characters such as newline and tab are accepted; and a
concrete document with raw control characters parses successfully. -/
theorem C10_raw_chars :
    (∀ (content rest : List Char) (pos : Pos),
      (∀ ch ∈ content, ch ≠ '"' ∧ ch ≠ '\\') →
      JSONLexer.strBody (content ++ '"' :: rest) pos =
        .ok (content.map Char.toNat, rest, advPosList pos (content ++ ['"']))) ∧
    parse_json (String.mk ['"', '\x01', '\n', '\t', '"']) = .ok (.str [1, 10, 9]) := by
  constructor
  · intro content
    induction content with
    | nil =>
      intro rest pos h
      rw [List.nil_append, strBody_quote]
      rfl
    | cons c cs ih =>
      intro rest pos h
      have hc := h c (List.mem_cons_self c cs)
      rw [List.cons_append, strBody_other c _ pos hc.1 hc.2]
      rw [ih rest (advPos pos c) (fun ch hch => h ch (List.mem_cons_of_mem c hch))]
      rfl
  · rfl

/-- Witness for C10: the single-character content `a` is copied verbatim. -/
theorem C10_raw_chars_witness :
    JSONLexer.strBody (['a'] ++ '"' :: []) (1, 2) =
      .ok (['a'].map Char.toNat, [], advPosList (1, 2) (['a'] ++ ['"'])) :=
  C10_raw_chars.1 ['a'] [] (1, 2) (by decide)

end JsonSpec
